import Mathlib

/-!
Verification development for the core of the `pior` static dead-code analyzer
(a Rust project).  The Rust sources are shallowly embedded below:

* machine integers (`u32`, `u64`, `usize`) are modelled as `Nat` (no claim
  involves overflow arithmetic; the values are only stored and compared);
* `PathBuf` is modelled as the list of its normalized components
  (`Path := List String`); Rust path equality compares components and
  skips `.` components, which the join operation below performs eagerly;
* source text is represented by its parsed `swc` AST: the external `swc`
  parser is out of scope of the repository, and every repository function
  operates on the AST (`extract_imports`, `extract_exports`, ...).  A file
  whose text does not parse is represented by an absent AST;
* the external `globset` matchers compiled from user-supplied pattern
  strings are modelled as abstract `Bool`-valued functions; the *default*
  pattern lists hard-coded in the repository are modelled concretely;
* the filesystem is modelled as an explicit finite structure (`FileSys`);
* `HashMap` / `HashSet` are modelled as association lists / lists with
  membership queries; iteration orders that Rust leaves unspecified are
  fixed to list order (all claim-relevant outputs are either sorted or
  order-insensitive sets).
-/

set_option maxRecDepth 200000

namespace Pior

/-! ### Paths and string utilities -/

/-- A filesystem path, as its list of components (absolute, root = `[]`).
Models Rust `PathBuf` up to component normalization. -/
abbrev Path := List String

/-- Substring containment on character lists; models Rust `str::contains`. -/
def listContainsSub : List Char → List Char → Bool
  | hay, needle =>
    needle.isPrefixOf hay ||
      (match hay with
       | [] => false
       | _ :: t => listContainsSub t needle)

/-- Models Rust `str::contains(pat)` for string patterns. -/
def strContains (hay needle : String) : Bool :=
  listContainsSub hay.data needle.data

/-- Models Rust `str::starts_with`. -/
def strStarts (s pre : String) : Bool :=
  pre.data.isPrefixOf s.data

/-- Models Rust `str::ends_with`. -/
def strEnds (s suf : String) : Bool :=
  suf.data.isSuffixOf s.data

/-- Splits a character list on `/` (keeping empty segments, like
`str::split('/')`). -/
def splitSlashAux : List Char → List Char → List (List Char)
  | [], acc => [acc.reverse]
  | c :: t, acc =>
    if c = '/' then acc.reverse :: splitSlashAux t []
    else splitSlashAux t (c :: acc)

/-- Splits a specifier or relative path string on `/` into path components,
dropping empty and `.` components exactly as Rust `Path::components`
normalization does for the purposes of path equality and lookups. -/
def splitSpec (s : String) : List String :=
  ((splitSlashAux s.data []).map String.mk).filter
    (fun seg => seg ≠ "." && seg ≠ "")

/-- Models Rust `Path::join` with a (possibly multi-component) string. -/
def joinPath (base : Path) (s : String) : Path :=
  base ++ splitSpec s

/-- Models Rust `Path::parent`: `none` at the root, otherwise drop the last
component. -/
def parentPath : Path → Option Path
  | [] => none
  | l => some l.dropLast

/-- Position (0-based, from the right is not used) of the last `.` that is
not the leading character of a file name: Rust's extension splitting rule
(`.gitignore` has no extension, `a.b.c` has extension `c`). -/
def lastDotIdx (cs : List Char) : Option Nat :=
  let rec go : List Char → Nat → Option Nat
    | [], _ => none
    | c :: t, i =>
      match go t (i + 1) with
      | some j => some j
      | none => if c = '.' && i ≠ 0 then some i else none
  go cs 0

/-- Models Rust `Path::with_extension` on a single file name. -/
def setExt (name ext : String) : String :=
  match lastDotIdx name.data with
  | some i => String.mk (name.data.take i) ++ "." ++ ext
  | none => name ++ "." ++ ext

/-- Models Rust `Path::with_extension` (replace the extension of the final
component; the empty path is returned unchanged). -/
def rustWithExtension (p : Path) (ext : String) : Path :=
  match p.getLast? with
  | none => p
  | some nm => p.dropLast ++ [setExt nm ext]

/-- Appends a suffix (e.g. `".ts"`) to the final component; models the
`format!("{}{}", path_str, ext)` fallback in `try_resolve_file`. -/
def appendToLast (p : Path) (suffix : String) : Path :=
  match p.getLast? with
  | none => p
  | some nm => p.dropLast ++ [nm ++ suffix]

/-- Models `Path::strip_prefix(root).unwrap_or(path)`. -/
def stripRoot (root p : Path) : Path :=
  if root.isPrefixOf p then p.drop root.length else p

/-- Display string of a path relative to a root, as
`strip_prefix(root).unwrap_or(path).to_string_lossy()` produces it. -/
def relDisplay (root p : Path) : String :=
  if root.isPrefixOf p then String.intercalate "/" (p.drop root.length)
  else "/" ++ String.intercalate "/" p

/-- String form of an absolute path, models `Path::to_string_lossy`. -/
def pathToString (p : Path) : String :=
  "/" ++ String.intercalate "/" p

/-! ### Parser data model (src/parser/imports.rs, src/parser/exports.rs) -/

/-- One imported binding of an `Import` (parser type `ImportedName`). -/
structure ImportedName where
  name : String
  aliasName : Option String
  isType : Bool
deriving DecidableEq, Repr

/-- Parser type `Import`. -/
structure Import where
  specifier : String
  importedNames : List ImportedName
  isTypeOnly : Bool
  isSideEffect : Bool
  line : Nat
  col : Nat
deriving DecidableEq, Repr

/-- Parser type `ExportKind`. -/
inductive ExportKind where
  | functionK | classK | variableK | constK | letK
  | typeK | interfaceK | enumK | namespaceK | defaultK
deriving DecidableEq, Repr

/-- Parser type `Export`. -/
structure Export where
  name : String
  kind : ExportKind
  isType : Bool
  isDefault : Bool
  line : Nat
  col : Nat
deriving DecidableEq, Repr

/-- One name of a `ReExport` (parser type `ReExportedName`). -/
structure ReExportedName where
  name : String
  aliasName : Option String
  isType : Bool
deriving DecidableEq, Repr

/-- Parser type `ReExport`. -/
structure ReExport where
  specifier : String
  exportedNames : List ReExportedName
  isTypeOnly : Bool
  line : Nat
  col : Nat
deriving DecidableEq, Repr

/-- Parser type `ParsedModule`. -/
structure ParsedModule where
  imports : List Import
  exports : List Export
  reExports : List ReExport
deriving DecidableEq, Repr

/-! ### The swc AST fragment inspected by the extractors

Only the variants and fields that `extract_imports` / `extract_exports`
pattern-match on are represented; every other variant collapses into an
explicit `other` constructor matching Rust's `_ => {}` arms.  Spans are
represented by the `(line, col)` pair that `get_line_col` computes. -/

/-- swc `ModuleExportName` (identifier or string literal). -/
inductive ModuleExportNameA where
  | identE (s : String)
  | strE (s : String)

/-- swc `Lit`: only string literals are inspected. -/
inductive LitA where
  | strL (s : String)
  | otherL

/-- swc `Callee`: only `Callee::Import` is distinguished. -/
inductive CalleeA where
  | importC
  | otherC

/-- swc `PropName`: only identifier keys are inspected. -/
inductive PropNameA where
  | identP (s : String)
  | otherP

/-- swc `ObjectPatProp` variants read by `extract_var_declarator`. -/
inductive ObjectPatPropA where
  | keyValue (key : PropNameA)
  | assignP (key : String)
  | otherProp

/-- swc `Pat` variants read by `extract_var_declarator`. -/
inductive PatA where
  | identPat (s : String)
  | objectPat (props : List ObjectPatPropA)
  | arrayPat (elems : List (Option PatA))
  | otherPat

/-- swc `VarDeclKind`. -/
inductive VarDeclKindA where
  | constV | letV | varV

mutual

/-- swc `Expr` variants visited by `extract_dynamic_import_from_expr`. -/
inductive ExprA where
  | call (callee : CalleeA) (args : List ExprA) (line col : Nat)
  | arrow (body : BlockStmtOrExprA)
  | awaitE (arg : ExprA)
  | paren (e : ExprA)
  | lit (l : LitA)
  | otherE

/-- swc `BlockStmtOrExpr` (arrow body). -/
inductive BlockStmtOrExprA where
  | blockB (stmts : List StmtA)
  | exprB (e : ExprA)

/-- swc `Stmt` variants visited by `extract_dynamic_imports`. -/
inductive StmtA where
  | exprStmt (e : ExprA)
  | declStmt (d : DeclA)
  | block (stmts : List StmtA)
  | ifStmt (cons : StmtA) (alt : Option StmtA)
  | ret (arg : Option ExprA)
  | otherS

/-- swc `Decl`.  `fnD` keeps the function body so that dynamic imports
nested inside function declarations are representable (the extractors never
descend into it, mirroring the Rust pattern match which binds only the
identifier of `Decl::Fn`). -/
inductive DeclA where
  | fnD (ident : String) (body : List StmtA)
  | classD (ident : String)
  | varD (kind : VarDeclKindA) (decls : List VarDeclaratorA)
  | tsInterface (id : String)
  | tsTypeAlias (id : String)
  | tsEnum (id : String)
  | tsModule (id : ModuleExportNameA)
  | otherD

/-- swc `VarDeclarator` (pattern and optional initializer). -/
inductive VarDeclaratorA where
  | mk (name : PatA) (init : Option ExprA)

end

/-- swc `ImportSpecifier`. -/
inductive ImportSpecifierA where
  | named (imported : Option ModuleExportNameA) (localName : String)
      (isTypeOnly : Bool)
  | defaultS (localName : String)
  | namespaceS (localName : String)

/-- swc `ImportDecl` with its `get_line_col` position. -/
structure ImportDeclA where
  src : String
  typeOnly : Bool
  specifiers : List ImportSpecifierA
  line : Nat
  col : Nat

/-- swc `DefaultDecl` (payload of `ExportDefaultDecl`). -/
inductive DefaultDeclA where
  | fnE (ident : Option String)
  | classE (ident : Option String)
  | tsInterfaceDecl (id : String)

/-- swc `ExportSpecifier`. -/
inductive ExportSpecifierA where
  | namedE (orig : ModuleExportNameA) (exported : Option ModuleExportNameA)
      (isTypeOnly : Bool)
  | namespaceE (name : ModuleExportNameA)
  | defaultE

/-- swc `NamedExport` with its position. -/
structure NamedExportA where
  src : Option String
  typeOnly : Bool
  specifiers : List ExportSpecifierA
  line : Nat
  col : Nat

/-- swc `ModuleDecl` variants inspected by the extractors. -/
inductive ModuleDeclA where
  | importD (d : ImportDeclA)
  | exportDecl (d : DeclA) (line col : Nat)
  | exportDefaultDecl (d : DefaultDeclA) (line col : Nat)
  | exportDefaultExpr (line col : Nat)
  | exportNamed (n : NamedExportA)
  | exportAll (src : String) (typeOnly : Bool) (line col : Nat)
  | tsExportAssignment (line col : Nat)
  | otherM

/-- swc `ModuleItem`. -/
inductive ModuleItemA where
  | moduleDecl (d : ModuleDeclA)
  | stmtI (s : StmtA)

/-- swc `Module::body`. -/
abbrev Ast := List ModuleItemA

/-! ### extract_imports (src/parser/imports.rs) -/

/-- Name of a `ModuleExportName` as `atom_to_string` / `wtf8_to_string`
produce it. -/
def menToString : ModuleExportNameA → String
  | .identE s => s
  | .strE s => s

/-- One `ImportedName` per import specifier: the loop body of
`extract_import_decl`. -/
def importedNameOfSpec (isTypeOnly : Bool) : ImportSpecifierA → ImportedName
  | .named imported localName specTypeOnly =>
    { name :=
        match imported with
        | some i => menToString i
        | none => localName
      aliasName := if imported.isSome then some localName else none
      isType := specTypeOnly || isTypeOnly }
  | .defaultS localName =>
    { name := "default", aliasName := some localName, isType := isTypeOnly }
  | .namespaceS localName =>
    { name := "*", aliasName := some localName, isType := isTypeOnly }

/-- `extract_import_decl`: the specifier loop pushes exactly one name per
specifier and clears `is_side_effect` as soon as one specifier exists. -/
def extractImportDecl (d : ImportDeclA) : Import :=
  { specifier := d.src
    importedNames := d.specifiers.map (importedNameOfSpec d.typeOnly)
    isTypeOnly := d.typeOnly
    isSideEffect := d.specifiers.isEmpty
    line := d.line
    col := d.col }

mutual

/-- `extract_dynamic_imports` over one statement (push order preserved). -/
def extractDynamicImports : StmtA → List Import
  | .exprStmt e => extractDynFromExpr e
  | .declStmt d =>
    match d with
    | .varD _ decls => extractDynFromDecls decls
    | _ => []
  | .block stmts => extractDynFromStmts stmts
  | .ifStmt cons alt =>
    extractDynamicImports cons ++
      (match alt with
       | some a => extractDynamicImports a
       | none => [])
  | .ret (some arg) => extractDynFromExpr arg
  | .ret none => []
  | .otherS => []

/-- Statement-list traversal used for `Stmt::Block`. -/
def extractDynFromStmts : List StmtA → List Import
  | [] => []
  | s :: t => extractDynamicImports s ++ extractDynFromStmts t

/-- Declarator-list traversal used for `Stmt::Decl(Decl::Var(..))`. -/
def extractDynFromDecls : List VarDeclaratorA → List Import
  | [] => []
  | .mk _ (some init) :: t => extractDynFromExpr init ++ extractDynFromDecls t
  | .mk _ none :: t => extractDynFromDecls t

/-- `extract_dynamic_import_from_expr`. -/
def extractDynFromExpr : ExprA → List Import
  | .call callee args line col =>
    match callee with
    | .importC =>
      match args with
      | .lit (.strL s) :: _ =>
        [{ specifier := s
           importedNames := [{ name := "*", aliasName := none, isType := false }]
           isTypeOnly := false
           isSideEffect := false
           line := line
           col := col }]
      | _ => []
    | .otherC => extractDynFromArgs args
  | .arrow body =>
    match body with
    | .exprB e => extractDynFromExpr e
    | .blockB _ => []
  | .awaitE a => extractDynFromExpr a
  | .paren e => extractDynFromExpr e
  | _ => []

/-- Call-argument traversal of `extract_dynamic_import_from_expr`. -/
def extractDynFromArgs : List ExprA → List Import
  | [] => []
  | e :: t => extractDynFromExpr e ++ extractDynFromArgs t

end

/-- `extract_imports`: import declarations and top-level statements, in
module-body order; every other `ModuleDecl` variant is skipped. -/
def extractImports (m : Ast) : List Import :=
  match m with
  | [] => []
  | .moduleDecl (.importD d) :: t => extractImportDecl d :: extractImports t
  | .moduleDecl _ :: t => extractImports t
  | .stmtI s :: t => extractDynamicImports s ++ extractImports t

/-! ### extract_exports (src/parser/exports.rs) -/

/-- `extract_var_declarator`. -/
def extractVarDeclarator (kind : ExportKind) (line col : Nat) :
    VarDeclaratorA → List Export
  | .mk (.identPat s) _ =>
    [{ name := s, kind := kind, isType := false, isDefault := false,
       line := line, col := col }]
  | .mk (.objectPat props) _ =>
    props.filterMap fun prop =>
      match prop with
      | .keyValue (.identP key) =>
        some { name := key, kind := kind, isType := false, isDefault := false,
               line := line, col := col }
      | .keyValue .otherP => none
      | .assignP key =>
        some { name := key, kind := kind, isType := false, isDefault := false,
               line := line, col := col }
      | .otherProp => none
  | .mk (.arrayPat elems) _ =>
    (elems.filterMap id).filterMap fun elem =>
      match elem with
      | .identPat s =>
        some { name := s, kind := kind, isType := false, isDefault := false,
               line := line, col := col }
      | _ => none
  | .mk .otherPat _ => []

/-- `extract_export_decl`. -/
def extractExportDecl (d : DeclA) (line col : Nat) : List Export :=
  match d with
  | .fnD ident _ =>
    [{ name := ident, kind := .functionK, isType := false, isDefault := false,
       line := line, col := col }]
  | .classD ident =>
    [{ name := ident, kind := .classK, isType := false, isDefault := false,
       line := line, col := col }]
  | .varD vk decls =>
    let kind : ExportKind :=
      match vk with
      | .constV => .constK
      | .letV => .letK
      | .varV => .variableK
    decls.flatMap (extractVarDeclarator kind line col)
  | .tsInterface id =>
    [{ name := id, kind := .interfaceK, isType := true, isDefault := false,
       line := line, col := col }]
  | .tsTypeAlias id =>
    [{ name := id, kind := .typeK, isType := true, isDefault := false,
       line := line, col := col }]
  | .tsEnum id =>
    [{ name := id, kind := .enumK, isType := false, isDefault := false,
       line := line, col := col }]
  | .tsModule id =>
    [{ name := menToString id, kind := .namespaceK, isType := true,
       isDefault := false, line := line, col := col }]
  | .otherD => []

/-- `extract_default_decl`. -/
def extractDefaultDecl (d : DefaultDeclA) (line col : Nat) : Export :=
  match d with
  | .fnE ident =>
    { name := ident.getD "default", kind := .functionK, isType := false,
      isDefault := true, line := line, col := col }
  | .classE ident =>
    { name := ident.getD "default", kind := .classK, isType := false,
      isDefault := true, line := line, col := col }
  | .tsInterfaceDecl id =>
    { name := id, kind := .interfaceK, isType := true, isDefault := true,
      line := line, col := col }

/-- `extract_default_expr`. -/
def extractDefaultExpr (line col : Nat) : Export :=
  { name := "default", kind := .defaultK, isType := false, isDefault := true,
    line := line, col := col }

/-- `extract_named_export` (an `export { .. }` without source). -/
def extractNamedExport (n : NamedExportA) : List Export :=
  n.specifiers.filterMap fun spec =>
    match spec with
    | .namedE orig exported isTypeOnly =>
      let nm := menToString orig
      let exportedName := exported.map menToString
      some { name := exportedName.getD nm, kind := .variableK,
             isType := isTypeOnly || n.typeOnly, isDefault := false,
             line := n.line, col := n.col }
    | _ => none

/-- `extract_named_re_export` (an `export { .. } from "s"`); only called
when `n.src` is present, so the `getD` default is unreachable. -/
def extractNamedReExport (n : NamedExportA) : ReExport :=
  { specifier := n.src.getD ""
    exportedNames :=
      n.specifiers.map fun spec =>
        match spec with
        | .namedE orig exported isTypeOnly =>
          { name := menToString orig, aliasName := exported.map menToString,
            isType := isTypeOnly || n.typeOnly }
        | .namespaceE name =>
          { name := "*", aliasName := some (menToString name),
            isType := n.typeOnly }
        | .defaultE =>
          { name := "default", aliasName := none, isType := n.typeOnly }
    isTypeOnly := n.typeOnly
    line := n.line
    col := n.col }

/-- `extract_exports`: walks the module body once, pushing exports and
re-exports in order.  Note that `export { .. } from` and `export * from`
yield only `ReExport` values — no `Import` is recorded for them. -/
def extractExports : Ast → List Export × List ReExport
  | [] => ([], [])
  | item :: rest =>
    let (es, rs) := extractExports rest
    match item with
    | .moduleDecl (.exportDecl d line col) =>
      (extractExportDecl d line col ++ es, rs)
    | .moduleDecl (.exportDefaultDecl d line col) =>
      (extractDefaultDecl d line col :: es, rs)
    | .moduleDecl (.exportDefaultExpr line col) =>
      (extractDefaultExpr line col :: es, rs)
    | .moduleDecl (.exportNamed n) =>
      if n.src.isSome then (es, extractNamedReExport n :: rs)
      else (extractNamedExport n ++ es, rs)
    | .moduleDecl (.exportAll src typeOnly line col) =>
      (es,
        { specifier := src
          exportedNames := [{ name := "*", aliasName := none, isType := typeOnly }]
          isTypeOnly := typeOnly
          line := line
          col := col } :: rs)
    | .moduleDecl (.tsExportAssignment line col) =>
      ({ name := "default", kind := .defaultK, isType := false,
         isDefault := true, line := line, col := col } :: es, rs)
    | .moduleDecl _ => (es, rs)
    | .stmtI _ => (es, rs)

/-- `extract_module_info` / `parse_source` on an already-parsed AST. -/
def extractModule (m : Ast) : ParsedModule :=
  { imports := extractImports m
    exports := (extractExports m).1
    reExports := (extractExports m).2 }

/-! ### Parse cache (src/cache/store.rs)

The on-disk serialization, directory handling and dirty tracking are I/O
and are not modelled; the in-memory entry map, the conversions and the
eviction policy are embedded faithfully. -/

/-- Cache type `CachedImportedName`. -/
structure CachedImportedName where
  name : String
  aliasName : Option String
  isType : Bool
deriving DecidableEq, Repr

/-- Cache type `CachedImport`. -/
structure CachedImport where
  specifier : String
  importedNames : List CachedImportedName
  isTypeOnly : Bool
  isSideEffect : Bool
  line : Nat
  col : Nat
deriving DecidableEq, Repr

/-- Cache type `CachedExport`; `kind` is the `Debug` string of the
parser's `ExportKind`. -/
structure CachedExport where
  name : String
  kind : String
  isType : Bool
  isDefault : Bool
  line : Nat
  col : Nat
deriving DecidableEq, Repr

/-- Cache type `CachedReExportedName`. -/
structure CachedReExportedName where
  name : String
  aliasName : Option String
  isType : Bool
deriving DecidableEq, Repr

/-- Cache type `CachedReExport`. -/
structure CachedReExport where
  specifier : String
  exportedNames : List CachedReExportedName
  isTypeOnly : Bool
  line : Nat
  col : Nat
deriving DecidableEq, Repr

/-- Cache type `CacheEntry`. -/
structure CacheEntry where
  contentHash : Nat
  modifiedTime : Nat
  imports : List CachedImport
  exports : List CachedExport
  reExports : List CachedReExport
deriving DecidableEq, Repr

/-- `format!("{:?}", kind)` on the parser's `ExportKind`. -/
def exportKindDebug : ExportKind → String
  | .functionK => "Function"
  | .classK => "Class"
  | .variableK => "Variable"
  | .constK => "Const"
  | .letK => "Let"
  | .typeK => "Type"
  | .interfaceK => "Interface"
  | .enumK => "Enum"
  | .namespaceK => "Namespace"
  | .defaultK => "Default"

/-- The kind-string decoder in `From<&CachedExport> for Export`
(unknown strings fall back to `Variable`). -/
def exportKindOfString (s : String) : ExportKind :=
  if s = "Function" then .functionK
  else if s = "Class" then .classK
  else if s = "Variable" then .variableK
  else if s = "Const" then .constK
  else if s = "Let" then .letK
  else if s = "Type" then .typeK
  else if s = "Interface" then .interfaceK
  else if s = "Enum" then .enumK
  else if s = "Namespace" then .namespaceK
  else if s = "Default" then .defaultK
  else .variableK

/-- `From<&Import> for CachedImport`. -/
def CachedImport.ofImport (i : Import) : CachedImport :=
  { specifier := i.specifier
    importedNames := i.importedNames.map fun n =>
      { name := n.name, aliasName := n.aliasName, isType := n.isType }
    isTypeOnly := i.isTypeOnly
    isSideEffect := i.isSideEffect
    line := i.line
    col := i.col }

/-- `From<&CachedImport> for Import`. -/
def Import.ofCached (c : CachedImport) : Import :=
  { specifier := c.specifier
    importedNames := c.importedNames.map fun n =>
      { name := n.name, aliasName := n.aliasName, isType := n.isType }
    isTypeOnly := c.isTypeOnly
    isSideEffect := c.isSideEffect
    line := c.line
    col := c.col }

/-- `From<&Export> for CachedExport`. -/
def CachedExport.ofExport (e : Export) : CachedExport :=
  { name := e.name
    kind := exportKindDebug e.kind
    isType := e.isType
    isDefault := e.isDefault
    line := e.line
    col := e.col }

/-- `From<&CachedExport> for Export`. -/
def Export.ofCached (c : CachedExport) : Export :=
  { name := c.name
    kind := exportKindOfString c.kind
    isType := c.isType
    isDefault := c.isDefault
    line := c.line
    col := c.col }

/-- `From<&ReExport> for CachedReExport`. -/
def CachedReExport.ofReExport (r : ReExport) : CachedReExport :=
  { specifier := r.specifier
    exportedNames := r.exportedNames.map fun n =>
      { name := n.name, aliasName := n.aliasName, isType := n.isType }
    isTypeOnly := r.isTypeOnly
    line := r.line
    col := r.col }

/-- `From<&CachedReExport> for ReExport`. -/
def ReExport.ofCached (c : CachedReExport) : ReExport :=
  { specifier := c.specifier
    exportedNames := c.exportedNames.map fun n =>
      { name := n.name, aliasName := n.aliasName, isType := n.isType }
    isTypeOnly := c.isTypeOnly
    line := c.line
    col := c.col }

/-- `CacheEntry::from_parsed`. -/
def CacheEntry.fromParsed (contentHash modifiedTime : Nat)
    (imports : List Import) (exports : List Export)
    (reExports : List ReExport) : CacheEntry :=
  { contentHash := contentHash
    modifiedTime := modifiedTime
    imports := imports.map CachedImport.ofImport
    exports := exports.map CachedExport.ofExport
    reExports := reExports.map CachedReExport.ofReExport }

/-- `CacheEntry::to_imports`. -/
def CacheEntry.toImports (e : CacheEntry) : List Import :=
  e.imports.map Import.ofCached

/-- `CacheEntry::to_exports`. -/
def CacheEntry.toExports (e : CacheEntry) : List Export :=
  e.exports.map Export.ofCached

/-- `CacheEntry::to_re_exports`. -/
def CacheEntry.toReExports (e : CacheEntry) : List ReExport :=
  e.reExports.map ReExport.ofCached

/-- `CacheConfig` (the advisory `max_age` is not read by the store
operations modelled here and is omitted). -/
structure CacheConfig where
  maxEntries : Nat
deriving DecidableEq, Repr

/-- `CacheConfig::default()`. -/
def CacheConfig.defaultC : CacheConfig :=
  { maxEntries := 10000 }

/-- In-memory `Cache` state: the entry map of `CacheData`, keyed by the
`to_string_lossy` form of the file path; iteration order of the Rust
`HashMap` is fixed to list order. -/
structure Cache where
  config : CacheConfig
  entries : List (String × CacheEntry)
deriving DecidableEq, Repr

/-- `Cache::get`. -/
def Cache.get (c : Cache) (p : Path) : Option CacheEntry :=
  (c.entries.find? (fun kv => kv.1 == pathToString p)).map Prod.snd

/-- `Cache::is_valid`. -/
def Cache.isValid (c : Cache) (p : Path) (contentHash : Nat) : Bool :=
  match c.get p with
  | some entry => entry.contentHash == contentHash
  | none => false

/-- `HashMap::insert` on the entry list: replace the entry with the same
key, or add a new one (the position of a fresh key inside the unordered
Rust map is immaterial; the end of the list is used). -/
def insertEntry (entries : List (String × CacheEntry)) (k : String)
    (v : CacheEntry) : List (String × CacheEntry) :=
  if entries.any (fun kv => kv.1 == k) then
    entries.map fun kv => if kv.1 == k then (k, v) else kv
  else entries ++ [(k, v)]

/-- The stable insertion step of `stableSort`: the new element goes after
every existing element `b` with `le b a`. -/
def insertStable (le : α → α → Bool) (a : α) : List α → List α
  | [] => [a]
  | b :: l => if le b a then b :: insertStable le a l else a :: b :: l

/-- Stable sort by a boolean comparator; models Rust's (stable)
`sort_by` / `sort_by_key`.  For a total, transitive comparator a stable
sort's output is unique, so this agrees with the Rust implementation. -/
def stableSort (le : α → α → Bool) (l : List α) : List α :=
  l.foldl (fun acc a => insertStable le a acc) []

/-- `Cache::evict_oldest`: sort the (key, modified-time) projection by
time, then remove the first `len - max_entries` keys from the map. -/
def Cache.evictOldest (c : Cache) : Cache :=
  let sorted := stableSort
    (fun a b => Nat.ble a.2.modifiedTime b.2.modifiedTime) c.entries
  let toRemove := sorted.length - c.config.maxEntries
  let removeKeys := (sorted.take toRemove).map Prod.fst
  { c with entries := c.entries.filter (fun kv => !(removeKeys.contains kv.1)) }

/-- `Cache::insert` (the `dirty` flag is I/O bookkeeping and omitted). -/
def Cache.insert (c : Cache) (p : Path) (entry : CacheEntry) : Cache :=
  let entries := insertEntry c.entries (pathToString p) entry
  let c := { c with entries := entries }
  if c.config.maxEntries < c.entries.length then c.evictOldest else c

/-- `Cache::len`. -/
def Cache.size (c : Cache) : Nat :=
  c.entries.length

/-! ### Filesystem model

The module resolver and the graph builder interrogate the filesystem
(`is_file`, `is_dir`, `exists`, `read_to_string`, package manifests).
`FileSys` represents the relevant observable state: regular files carry
their content hash, modification time and parse outcome (`none` models a
file whose text the parser rejects); `pkgJsons` carries the entry-point
fields of every `package.json` that exists and deserializes (a missing,
unreadable or malformed manifest is an absent key — the Rust code treats
all three identically by falling through). -/

/-- Observable content of one regular file. -/
structure SrcFile where
  hash : Nat
  mtime : Nat
  ast : Option Ast

/-- The `module` / `main` / `types` fields of a dependency's manifest,
read by `resolve_package_entry`. -/
structure PkgFields where
  moduleF : Option String
  mainF : Option String
  typesF : Option String

/-- The filesystem model. -/
structure FileSys where
  files : List (Path × SrcFile)
  dirs : List Path
  pkgJsons : List (Path × PkgFields)

/-- `Path::is_file`. -/
def FileSys.isFile (fs : FileSys) (p : Path) : Bool :=
  fs.files.any (fun kv => kv.1 == p)

/-- `Path::is_dir`. -/
def FileSys.isDir (fs : FileSys) (p : Path) : Bool :=
  fs.dirs.any (fun d => d == p)

/-- `Path::exists`. -/
def FileSys.pathExists (fs : FileSys) (p : Path) : Bool :=
  fs.isFile p || fs.isDir p

/-- `fs::read_to_string` combined with hashing and parsing: the observable
data of a successful read. -/
def FileSys.readFile (fs : FileSys) (p : Path) : Option SrcFile :=
  (fs.files.find? (fun kv => kv.1 == p)).map Prod.snd

/-- Manifest lookup of `resolve_package_entry` (exists ∧ reads ∧ parses). -/
def FileSys.pkgJson (fs : FileSys) (p : Path) : Option PkgFields :=
  (fs.pkgJsons.find? (fun kv => kv.1 == p)).map Prod.snd

/-! ### Module resolver (src/resolver/node.rs) -/

/-- `EXTENSIONS` (resolution order). -/
def EXTENSIONS : List String :=
  [".ts", ".tsx", ".js", ".jsx", ".mjs", ".cjs", ".mts", ".cts"]

/-- `INDEX_FILES`. -/
def INDEX_FILES : List String :=
  ["index.ts", "index.tsx", "index.js", "index.jsx", "index.mjs", "index.cjs"]

/-- `ModuleResolver` state. -/
structure ModuleResolver where
  root : Path
  baseUrl : Option Path
  paths : List (String × List String)

/-- A specifier starting with `./` or `../` (the relative tests of
`resolve`, `is_external` and `get_package_name`), on the character list. -/
def relTestL : List Char → Bool
  | '.' :: '/' :: _ => true
  | '.' :: '.' :: '/' :: _ => true
  | _ => false

/-- A specifier starting with `/`, on the character list. -/
def absTestL : List Char → Bool
  | '/' :: _ => true
  | _ => false

/-- `specifier.starts_with("./") || specifier.starts_with("../")`. -/
def isRelativeSpec (s : String) : Bool :=
  relTestL s.data

/-- `specifier.starts_with('/')`. -/
def isAbsoluteSpec (s : String) : Bool :=
  absTestL s.data

/-- Splits a character list at its first `/`: the part before it, and
(when a `/` exists) the remainder after it. -/
def breakOnSlash : List Char → List Char × Option (List Char)
  | [] => ([], none)
  | c :: rest =>
    if c = '/' then ([], some rest)
    else
      let (a, r) := breakOnSlash rest
      (c :: a, r)

/-- `parse_package_specifier` on the character list.  The `@`-branch uses
`splitn(3, '/')` (encoded by splitting at the first two slashes) and takes
`specifier[..(parts0.len() + 1 + parts1.len())]` as the package name; a
specifier without `/` falls through to the plain `find('/')` branch. -/
def parsePackageSpecifierL (cs : List Char) : List Char × Option (List Char) :=
  if cs.head? = some '@' then
    match breakOnSlash cs with
    | (_, none) =>
      -- splitn produced a single part: fall through to the find branch,
      -- which finds no slash either
      (cs, none)
    | (p0, some r0) =>
      match breakOnSlash r0 with
      | (_, none) => (cs, none)
      | (p1, some rest) => (cs.take (p0.length + 1 + p1.length), some rest)
  else
    match breakOnSlash cs with
    | (before, some after) => (before, some after)
    | (_, none) => (cs, none)

/-- `parse_package_specifier`. -/
def parsePackageSpecifier (s : String) : String × Option String :=
  let (a, b) := parsePackageSpecifierL s.data
  (String.mk a, b.map String.mk)

/-- `ModuleResolver::get_package_name`. -/
def getPackageName (s : String) : Option String :=
  if isRelativeSpec s || isAbsoluteSpec s then none
  else some (parsePackageSpecifier s).1

/-- `match_path_pattern`. -/
def matchPathPattern (pattern specifier : String) : Option String :=
  if pattern.data.contains '*' then
    let pre := String.mk (pattern.data.takeWhile (fun c => c ≠ '*'))
    if strStarts specifier pre then
      some (String.mk (specifier.data.drop pre.data.length))
    else none
  else if pattern = specifier then some ""
  else none

/-- The extension-replacement probe loop of `try_resolve_file`. -/
def findExtReplace (fs : FileSys) (path : Path) : Option Path :=
  EXTENSIONS.findSome? fun ext =>
    let w := rustWithExtension path (String.mk ext.data.tail)
    if fs.isFile w then some w else none

/-- The extension-appending probe loop of `try_resolve_file`. -/
def findExtAppend (fs : FileSys) (path : Path) : Option Path :=
  EXTENSIONS.findSome? fun ext =>
    let w := appendToLast path ext
    if fs.isFile w then some w else none

/-- The index-file probe loop of `try_resolve_file` (and the final loop of
`resolve_package_entry`): probes with `exists`, not `is_file`. -/
def findIndexIn (fs : FileSys) (dir : Path) : Option Path :=
  INDEX_FILES.findSome? fun idx =>
    let ip := dir ++ [idx]
    if fs.pathExists ip then some ip else none

/-- `ModuleResolver::try_resolve_file`. -/
def tryResolveFile (fs : FileSys) (path : Path) : Option Path :=
  if fs.isFile path then some path
  else
    match findExtReplace fs path with
    | some w => some w
    | none =>
      match findExtAppend fs path with
      | some w => some w
      | none => if fs.isDir path then findIndexIn fs path else none

/-- `ModuleResolver::resolve_path_alias` (pattern iteration order of the
Rust `HashMap` is fixed to list order). -/
def resolvePathAlias (fs : FileSys) (r : ModuleResolver) (specifier : String) :
    Option Path :=
  r.paths.findSome? fun pr =>
    match matchPathPattern pr.1 specifier with
    | some matched =>
      pr.2.findSome? fun repl =>
        let resolvedPath := repl.replace "*" matched
        let base := match r.baseUrl with
          | some b => b
          | none => r.root
        tryResolveFile fs (joinPath base resolvedPath)
    | none => none

/-- `ModuleResolver::resolve_relative`. -/
def resolveRelative (fs : FileSys) (specifier : String) (frm : Path) :
    Option Path :=
  match parentPath frm with
  | none => none
  | some baseDir => tryResolveFile fs (joinPath baseDir specifier)

/-- `ModuleResolver::resolve_absolute`. -/
def resolveAbsolute (fs : FileSys) (specifier : String) : Option Path :=
  tryResolveFile fs (splitSpec specifier)

/-- `ModuleResolver::resolve_from_base`. -/
def resolveFromBase (fs : FileSys) (specifier : String) (baseUrl : Path) :
    Option Path :=
  tryResolveFile fs (joinPath baseUrl specifier)

/-- `ModuleResolver::resolve_package_entry`. -/
def resolvePackageEntry (fs : FileSys) (pkgDir : Path) (sub : Option String) :
    Option Path :=
  match sub with
  | some s => tryResolveFile fs (joinPath pkgDir s)
  | none =>
    let fromManifest :=
      match fs.pkgJson (pkgDir ++ ["package.json"]) with
      | some fields =>
        [fields.moduleF, fields.mainF, fields.typesF].findSome? fun fld =>
          match fld with
          | some entry => tryResolveFile fs (joinPath pkgDir entry)
          | none => none
      | none => none
    match fromManifest with
    | some p => some p
    | none => findIndexIn fs pkgDir

/-- The probe of one ancestor inside the `resolve_node_modules` loop. -/
def nmAttempt (fs : FileSys) (specifier : String) (current : Path) :
    Option Path :=
  let nm := current ++ ["node_modules"]
  if fs.isDir nm then
    let (packageName, sub) := parsePackageSpecifier specifier
    let pkgDir := nm ++ splitSpec packageName
    if fs.isDir pkgDir then resolvePackageEntry fs pkgDir sub else none
  else none

/-- The ancestor-ascent loop of `resolve_node_modules`, recursing on the
reversed component list so that `parent` (= dropping the head of the
reversal) is structural; the reversal of the argument is the current
ancestor. -/
def nmAscend (fs : FileSys) (specifier : String) : List String → Option Path
  | [] => nmAttempt fs specifier []
  | s :: rest =>
    match nmAttempt fs specifier ((s :: rest).reverse) with
    | some p => some p
    | none => nmAscend fs specifier rest

/-- `ModuleResolver::resolve_node_modules`. -/
def resolveNodeModules (fs : FileSys) (specifier : String) (frm : Path) :
    Option Path :=
  match parentPath frm with
  | none => none
  | some start => nmAscend fs specifier start.reverse

/-- `ModuleResolver::resolve`. -/
def resolve (fs : FileSys) (r : ModuleResolver) (specifier : String)
    (frm : Path) : Option Path :=
  match resolvePathAlias fs r specifier with
  | some resolved => some resolved
  | none =>
    if isRelativeSpec specifier then resolveRelative fs specifier frm
    else if isAbsoluteSpec specifier then resolveAbsolute fs specifier
    else
      let fromBase :=
        match r.baseUrl with
        | some baseUrl => resolveFromBase fs specifier baseUrl
        | none => none
      match fromBase with
      | some resolved => some resolved
      | none => resolveNodeModules fs specifier frm

/-- `ModuleResolver::is_external`. -/
def isExternal (fs : FileSys) (r : ModuleResolver) (specifier : String) : Bool :=
  if isRelativeSpec specifier || isAbsoluteSpec specifier then false
  else if r.paths.any (fun pr => (matchPathPattern pr.1 specifier).isSome) then
    false
  else
    match r.baseUrl with
    | some baseUrl =>
      if (resolveFromBase fs specifier baseUrl).isSome then false else true
    | none => true

/-! ### Resolved configuration (src/config/schema.rs, src/config/loader.rs)

Compiled `globset` matchers are external-library values; each
user-supplied pattern is modelled by the `Bool`-valued matcher the library
would compile it to (plus a flag recording whether compilation succeeded,
because the Rust code branches on `Glob::new` failures).  The hard-coded
default pattern lists are modelled concretely below.  The tsconfig merge
performed by `create_resolver` is represented by carrying the already
merged resolver inputs (`resolverPaths`, `baseUrl`) in the config. -/

/-- One pattern of `config.ignore` as used by `find_unused_files`:
`isGlob` models `pattern.contains('*')`; when the glob compiles, its
matcher is consulted and the result returned; otherwise the substring
test `relative.contains(pattern)` (modelled by `substr`) applies. -/
structure IgnorePat where
  isGlob : Bool
  glob : Option (String → Bool)
  substr : String → Bool

/-- `should_ignore` for one pattern, from `find_unused_files`. -/
def ignorePatMatches (pat : IgnorePat) (rel : String) : Bool :=
  if pat.isGlob then
    match pat.glob with
    | some m => m rel
    | none => pat.substr rel
  else pat.substr rel

/-- One entry pattern: the compiled glob (when `Glob::new` succeeded,
applied to root-relative paths) and the raw pattern string used by the
literal fallback `root.join(pattern)`. -/
structure EntryPat where
  globOk : Bool
  globMatch : Path → Bool
  raw : String

/-- One key of `config.ignore_exports`: its literal key string, and the
compiled matcher on the module's root-relative display path (`none` when
`Glob::new` fails, in which case the Rust filter drops the entry). -/
structure IgnExpKey where
  key : String
  glob : Option (String → Bool)

/-- `PackageJson` fields read by the core (dependency maps keep only
their name lists; versions are never read). -/
structure PkgJsonM where
  mainField : Option String
  dependencies : List String
  devDependencies : List String
  peerDependencies : List String
  optionalDependencies : List String

/-- The `ResolvedConfig` data reaching the graph builder and analyzers. -/
structure ConfigM where
  root : Path
  entry : List EntryPat
  projectPats : List (Path → Bool)
  ignoreFiles : List (Path → Bool)
  ignore : List IgnorePat
  ignoreExports : List (IgnExpKey × List String)
  ignoreExportsUsedInFile : Bool
  includeEntryExports : Bool
  ignoreDependencies : List String
  resolverPaths : List (String × List String)
  baseUrl : Option Path
  packageJson : Option PkgJsonM

/-- `create_resolver` on the merged inputs. -/
def createResolver (cfg : ConfigM) : ModuleResolver :=
  { root := cfg.root, baseUrl := cfg.baseUrl, paths := cfg.resolverPaths }

/-! ### Graph builder (src/graph/builder.rs) -/

/-- Graph type `ResolvedImport`. -/
structure ResolvedImportM where
  original : Import
  resolvedPath : Option Path
  packageName : Option String
deriving DecidableEq, Repr

/-- Graph type `Module`. -/
structure ModuleM where
  path : Path
  imports : List ResolvedImportM
  exports : List Export
  reExports : List ReExport
deriving DecidableEq, Repr

/-- Graph type `ModuleGraph`; the `HashMap`s are association lists whose
iteration order is list order (file-discovery order for `modules`). -/
structure ModuleGraphM where
  modules : List (Path × ModuleM)
  entryPoints : List Path
  externalImports : List (String × List Path)
deriving DecidableEq, Repr

/-- Build options (`cache`, `production`, `strict`). -/
structure BuildOptionsM where
  cache : Option Cache
  production : Bool
  strict : Bool

/-- `BuildOptions::default()`. -/
def BuildOptionsM.defaultB : BuildOptionsM :=
  { cache := none, production := false, strict := false }

/-- The default include set compiled from `**/*.{ts,tsx,js,jsx,mjs,cjs}`
when `config.project` is empty, evaluated on the root-relative path: the
file name must end in one of the six extensions. -/
def defaultIncludeMatch (rel : Path) : Bool :=
  let nm := rel.getLastD ""
  strEnds nm ".ts" || strEnds nm ".tsx" || strEnds nm ".js" ||
    strEnds nm ".jsx" || strEnds nm ".mjs" || strEnds nm ".cjs"

/-- The always-excluded set `**/node_modules/**`, `**/dist/**`,
`**/build/**`, `**/.git/**`: some non-final component is one of the four
directory names. -/
def defaultExcludeMatch (rel : Path) : Bool :=
  rel.dropLast.any fun seg =>
    seg == "node_modules" || seg == "dist" || seg == "build" || seg == ".git"

/-- The additional production excludes (test/spec/tests/mocks/stories
patterns of `collect_project_files`). -/
def productionExcludeMatch (rel : Path) : Bool :=
  let nm := rel.getLastD ""
  strEnds nm ".test.ts" || strEnds nm ".test.tsx" || strEnds nm ".test.js" ||
    strEnds nm ".test.jsx" || strEnds nm ".spec.ts" || strEnds nm ".spec.tsx" ||
    strEnds nm ".spec.js" || strEnds nm ".spec.jsx" ||
    strEnds nm ".stories.ts" || strEnds nm ".stories.tsx" ||
    strEnds nm ".stories.js" || strEnds nm ".stories.jsx" ||
    rel.dropLast.any fun seg =>
      seg == "__tests__" || seg == "__mocks__" || seg == "test" || seg == "tests"

/-- `collect_project_files`: the walker yields the existing files in
order; a file is kept when its root-relative path avoids the exclude set
and matches the include set. -/
def collectProjectFiles (fs : FileSys) (cfg : ConfigM) (opts : BuildOptionsM) :
    List Path :=
  (fs.files.map Prod.fst).filter fun p =>
    let rel := stripRoot cfg.root p
    let excluded :=
      cfg.ignoreFiles.any (fun m => m rel) || defaultExcludeMatch rel ||
        (opts.production && productionExcludeMatch rel)
    let included :=
      if cfg.projectPats.isEmpty then defaultIncludeMatch rel
      else cfg.projectPats.any (fun m => m rel)
    !excluded && included

/-- The fixed `default_entries` list of `find_entry_points`. -/
def defaultEntries : List String :=
  ["src/index.ts", "src/index.tsx", "src/main.ts", "src/main.tsx",
   "index.ts", "index.tsx", "index.js", "main.ts", "main.tsx", "main.js"]

/-- The per-pattern loop body of `find_entry_points`: a compiled glob is
matched against every discovered file's root-relative path; a pattern the
glob compiler rejects is joined to the root and kept when discovered. -/
def entryPatFiles (root : Path) (projectFiles : List Path) (pat : EntryPat) :
    List Path :=
  if pat.globOk then
    projectFiles.filter fun file => pat.globMatch (stripRoot root file)
  else if projectFiles.contains (joinPath root pat.raw) then
    [joinPath root pat.raw]
  else []

/-- The user-pattern stage of `find_entry_points` (empty when the user
configured no entry patterns). -/
def entriesFromConfig (root : Path) (cfg : ConfigM)
    (projectFiles : List Path) : List Path :=
  if cfg.entry.isEmpty then []
  else cfg.entry.flatMap (entryPatFiles root projectFiles)

/-- The default-entries stage of `find_entry_points`: when no entry was
selected yet, the first default entry that names a discovered file. -/
def entriesWithDefaults (root : Path) (projectFiles : List Path)
    (entries : List Path) : List Path :=
  if entries.isEmpty then
    match defaultEntries.find?
        (fun e => projectFiles.contains (joinPath root e)) with
    | some e => [joinPath root e]
    | none => []
  else entries

/-- The manifest-`main` stage of `find_entry_points`. -/
def entriesWithMain (root : Path) (cfg : ConfigM) (projectFiles : List Path)
    (entries : List Path) : List Path :=
  match cfg.packageJson with
  | some pkg =>
    match pkg.mainField with
    | some mn =>
      if projectFiles.contains (joinPath root mn) &&
          !(entries.contains (joinPath root mn)) then
        entries ++ [joinPath root mn]
      else entries
    | none => entries
  | none => entries

/-- `find_entry_points`. -/
def findEntryPoints (root : Path) (cfg : ConfigM) (projectFiles : List Path) :
    List Path :=
  entriesWithMain root cfg projectFiles
    (entriesWithDefaults root projectFiles
      (entriesFromConfig root cfg projectFiles))

/-- `parse_file` (the no-cache branch of the parallel parse): read then
parse; either failure skips the file. -/
def parseFile (fs : FileSys) (p : Path) : Option ParsedModule :=
  match fs.readFile p with
  | none => none
  | some sf =>
    match sf.ast with
    | some a => some (extractModule a)
    | none => none

/-- One task of the cache-aware parallel parse: read, hash, consult the
cache, reconstruct on a hash hit, otherwise parse and insert.  Returns
the parse outcome and the updated cache. -/
def parseWithCache (fs : FileSys) (c : Cache) (p : Path) :
    Option (Path × ParsedModule) × Cache :=
  match fs.readFile p with
  | none => (none, c)
  | some sf =>
    let contentHash := sf.hash
    let hit :=
      match c.get p with
      | some entry =>
        if entry.contentHash == contentHash then
          some { imports := entry.toImports
                 exports := entry.toExports
                 reExports := entry.toReExports : ParsedModule }
        else none
      | none => none
    match hit with
    | some pm => (some (p, pm), c)
    | none =>
      match sf.ast with
      | some a =>
        let pm := extractModule a
        let entry := CacheEntry.fromParsed contentHash sf.mtime
          pm.imports pm.exports pm.reExports
        (some (p, pm), c.insert p entry)
      | none => (none, c)

/-- The cache-aware parse of all project files.  Rust runs the tasks in a
thread pool sharing the cache behind a mutex and collects the outcomes
in file order; distinct files touch distinct cache keys, so threading the
cache sequentially in file order is observably equivalent. -/
def parseAllWithCache (fs : FileSys) :
    Cache → List Path → List (Path × ParsedModule)
  | _, [] => []
  | c, p :: rest =>
    match parseWithCache fs c p with
    | (some pr, c2) => pr :: parseAllWithCache fs c2 rest
    | (none, c2) => parseAllWithCache fs c2 rest

/-- Stage 3 of `build_graph_with_options` (with or without a cache). -/
def parseStage (fs : FileSys) (opts : BuildOptionsM)
    (projectFiles : List Path) : List (Path × ParsedModule) :=
  match opts.cache with
  | some c => parseAllWithCache fs c projectFiles
  | none => projectFiles.filterMap fun p => (parseFile fs p).map ((p, ·))

/-- `external_imports.entry(pkg).or_default().push(path)`. -/
def pushExternal (ext : List (String × List Path)) (pkg : String) (p : Path) :
    List (String × List Path) :=
  if ext.any (fun kv => kv.1 == pkg) then
    ext.map fun kv => if kv.1 == pkg then (kv.1, kv.2 ++ [p]) else kv
  else ext ++ [(pkg, [p])]

/-- The per-import resolution step of the assembly loop. -/
def resolveImport (fs : FileSys) (r : ModuleResolver) (p : Path) (i : Import) :
    ResolvedImportM :=
  { original := i
    resolvedPath := resolve fs r i.specifier p
    packageName :=
      if isExternal fs r i.specifier then getPackageName i.specifier
      else none }

/-- The module-map half of the serial assembly loop of
`build_graph_with_options` (lines 112–149): for each parsed module in
file order, resolve every import and insert the module (walker file paths
are distinct, so insertion order models the `HashMap`). -/
def assembleModulesList (fs : FileSys) (r : ModuleResolver) :
    List (Path × ParsedModule) → List (Path × ModuleM)
  | [] => []
  | (p, pm) :: rest =>
    (p, { path := p
          imports := pm.imports.map (resolveImport fs r p)
          exports := pm.exports
          reExports := pm.reExports }) :: assembleModulesList fs r rest

/-- The external-usage half of the same loop: the map is threaded
front-to-back, one push per external import, exactly as the Rust loop
mutates it. -/
def assembleExternal (fs : FileSys) (r : ModuleResolver) :
    List (Path × ParsedModule) → List (String × List Path) →
      List (String × List Path)
  | [], ext => ext
  | (p, pm) :: rest, ext =>
    assembleExternal fs r rest
      ((pm.imports.map (resolveImport fs r p)).foldl
        (fun acc ri =>
          match ri.packageName with
          | some pkg => pushExternal acc pkg p
          | none => acc)
        ext)

/-- `build_graph_with_options`. -/
def buildGraphWithOptions (fs : FileSys) (cfg : ConfigM)
    (opts : BuildOptionsM) : ModuleGraphM :=
  let resolver := createResolver cfg
  let projectFiles := collectProjectFiles fs cfg opts
  let entryPoints := findEntryPoints cfg.root cfg projectFiles
  let parsed := parseStage fs opts projectFiles
  { modules := assembleModulesList fs resolver parsed
    entryPoints := entryPoints
    externalImports := assembleExternal fs resolver parsed [] }

/-- Key membership in the modules map (`HashMap::contains_key`). -/
def modulesContains (mods : List (Path × ModuleM)) (p : Path) : Bool :=
  mods.any (fun kv => kv.1 == p)

/-- Module lookup (`HashMap::get`). -/
def modulesGet (mods : List (Path × ModuleM)) (p : Path) : Option ModuleM :=
  (mods.find? (fun kv => kv.1 == p)).map Prod.snd

/-- `ModuleGraph::resolve_re_export_source`: scan the modules for the one
whose path equals `frm`; inside it, the first import with the same literal
specifier decides the answer (its `resolved_path`, even when `None`);
a matching module without such an import lets the outer scan continue. -/
def reExportSourceIn : List (Path × ModuleM) → Path → String → Option Path
  | [], _, _ => none
  | (_, m) :: rest, frm, spec =>
    if m.path == frm then
      match m.imports.find? (fun ri => ri.original.specifier == spec) with
      | some ri => ri.resolvedPath
      | none => reExportSourceIn rest frm spec
    else reExportSourceIn rest frm spec

/-- `resolve_re_export_source` on a graph. -/
def resolveReExportSource (g : ModuleGraphM) (frm : Path) (spec : String) :
    Option Path :=
  reExportSourceIn g.modules frm spec

/-- Total number of import and re-export records in the graph; used as
the fuel bound of the worklist loop. -/
def graphEdgeBound (g : ModuleGraphM) : Nat :=
  g.modules.foldl
    (fun acc pm => acc + pm.2.imports.length + pm.2.reExports.length) 0

/-- The worklist loop of `ModuleGraph::get_reachable_files`.  The queue is
a stack whose head is the top (Rust pops from the end of its `Vec`);
`reachable` is the insertion list of the Rust `HashSet` (membership is the
only observation made of it).  Each iteration pops one element, and
elements are pushed only in the iteration that newly inserts their source
path into `reachable` — at most once per modules entry — so the total
number of iterations is bounded by `entryPoints.length + graphEdgeBound`
and the fuel never runs out. -/
def reachAux (g : ModuleGraphM) : Nat → List Path → List Path → List Path
  | 0, reachable, _ => reachable
  | _ + 1, reachable, [] => reachable
  | fuel + 1, reachable, path :: queue =>
    if reachable.contains path then reachAux g fuel reachable queue
    else
      let reachable := path :: reachable
      match modulesGet g.modules path with
      | some m =>
        let queue := m.imports.foldl
          (fun q ri =>
            match ri.resolvedPath with
            | some resolved =>
              if modulesContains g.modules resolved &&
                  !(reachable.contains resolved) then resolved :: q
              else q
            | none => q)
          queue
        let queue := m.reExports.foldl
          (fun q re =>
            match resolveReExportSource g path re.specifier with
            | some resolved =>
              if !(reachable.contains resolved) then resolved :: q else q
            | none => q)
          queue
        reachAux g fuel reachable queue
      | none => reachAux g fuel reachable queue

/-- `ModuleGraph::get_reachable_files` (the result is queried only through
membership). -/
def getReachableFiles (g : ModuleGraphM) : List Path :=
  reachAux g (g.entryPoints.length + graphEdgeBound g + 1) []
    g.entryPoints.reverse

/-- `used.entry(resolved).or_default()` (create an empty name set). -/
def ensureUsedEntry (used : List (Path × List String)) (p : Path) :
    List (Path × List String) :=
  if used.any (fun kv => kv.1 == p) then used else used ++ [(p, [])]

/-- `HashSet::insert` of one used name. -/
def addUsed (used : List (Path × List String)) (p : Path) (n : String) :
    List (Path × List String) :=
  if used.any (fun kv => kv.1 == p) then
    used.map fun kv =>
      if kv.1 == p then (kv.1, if kv.2.contains n then kv.2 else kv.2 ++ [n])
      else kv
  else used ++ [(p, [n])]

/-- `ModuleGraph::get_used_exports`. -/
def getUsedExports (g : ModuleGraphM) : List (Path × List String) :=
  g.modules.foldl
    (fun used pm =>
      pm.2.imports.foldl
        (fun used ri =>
          match ri.resolvedPath with
          | some resolved =>
            let used := ensureUsedEntry used resolved
            let used := ri.original.importedNames.foldl
              (fun used n =>
                if n.name == "*" then addUsed used resolved "*"
                else addUsed used resolved n.name)
              used
            if ri.original.isSideEffect then addUsed used resolved "*"
            else used
          | none => used)
        used)
    []

/-! ### Comparators

Rust sorts diagnostics with the (stable) `sort_by` under the `Ord`
instances of `PathBuf` (componentwise lexicographic) and tuples.  The
boolean comparators below realize `cmp != Greater`. -/

/-- Lexicographic strict order on character lists (Rust `str` order). -/
def strLtL : List Char → List Char → Bool
  | [], [] => false
  | [], _ :: _ => true
  | _ :: _, [] => false
  | a :: as, b :: bs =>
    if a < b then true else if b < a then false else strLtL as bs

/-- Rust `str::cmp` as a strict order. -/
def strLtB (a b : String) : Bool :=
  strLtL a.data b.data

/-- Rust `Path::cmp` (componentwise lexicographic) as a strict order. -/
def pathLtB : Path → Path → Bool
  | [], [] => false
  | [], _ :: _ => true
  | _ :: _, [] => false
  | a :: as, b :: bs =>
    if strLtB a b then true else if strLtB b a then false else pathLtB as bs

/-- `a.path.cmp(&b.path) != Greater`. -/
def pathLeB (a b : Path) : Bool :=
  pathLtB a b || a == b

/-- `(a.path, a.line).cmp(&(b.path, b.line)) != Greater`. -/
def pathLineLeB (pa : Path) (la : Nat) (pb : Path) (lb : Nat) : Bool :=
  pathLtB pa pb || (pa == pb && Nat.ble la lb)

/-! ### Analysis engine (src/analyzer/mod.rs) -/

/-- Result type `UnusedFile`. -/
structure UnusedFileM where
  path : Path
deriving DecidableEq, Repr

/-- Result type `ExportKind` of the crate root. -/
inductive ExportKindR where
  | functionR | classR | variableR | constR | letR | enumR | namespaceR
  | defaultR
deriving DecidableEq, Repr

/-- Result type `TypeKind`. -/
inductive TypeKindR where
  | typeT | interfaceT | enumT
deriving DecidableEq, Repr

/-- Result type `UnusedExport`. -/
structure UnusedExportM where
  path : Path
  name : String
  line : Nat
  col : Nat
  kind : ExportKindR
  isType : Bool
deriving DecidableEq, Repr

/-- Result type `UnusedType`. -/
structure UnusedTypeM where
  path : Path
  name : String
  line : Nat
  col : Nat
  kind : TypeKindR
deriving DecidableEq, Repr

/-- Result type `UnresolvedImport`. -/
structure UnresolvedImportM where
  path : Path
  specifier : String
  line : Nat
  col : Nat
deriving DecidableEq, Repr

/-- `is_test_file`. -/
def isTestFile (s : String) : Bool :=
  strContains s ".test." || strContains s ".spec." ||
    strContains s "__tests__" || strContains s "__mocks__" ||
    strEnds s ".test.ts" || strEnds s ".test.tsx" || strEnds s ".test.js" ||
    strEnds s ".test.jsx" || strEnds s ".spec.ts" || strEnds s ".spec.tsx" ||
    strEnds s ".spec.js" || strEnds s ".spec.jsx"

/-- `find_unused_files`. -/
def findUnusedFiles (g : ModuleGraphM) (cfg : ConfigM) : List UnusedFileM :=
  let reachable := getReachableFiles g
  let unused := (g.modules.map Prod.fst).filterMap fun p =>
    if reachable.contains p then none
    else
      let rel := relDisplay cfg.root p
      if cfg.ignore.any (fun pat => ignorePatMatches pat rel) then none
      else if isTestFile rel then none
      else some { path := p }
  stableSort (fun a b => pathLeB a.path b.path) unused

/-- `convert_export_kind`. -/
def convertExportKind : ExportKind → ExportKindR
  | .functionK => .functionR
  | .classK => .classR
  | .variableK => .variableR
  | .constK => .constR
  | .letK => .letR
  | .typeK => .constR
  | .interfaceK => .constR
  | .enumK => .enumR
  | .namespaceK => .namespaceR
  | .defaultK => .defaultR

/-- The type-kind projection used for the `unused_types` list. -/
def typeKindOf : ExportKind → TypeKindR
  | .typeK => .typeT
  | .interfaceK => .interfaceT
  | .enumK => .enumT
  | _ => .typeT

/-- `used_exports.get(path)`. -/
def usedLookup (used : List (Path × List String)) (p : Path) :
    Option (List String) :=
  (used.find? (fun kv => kv.1 == p)).map Prod.snd

/-- The per-module body of `find_unused_exports` (the two `continue`
conditions that skip the whole module, then the per-export filters). -/
def unusedExportsOfModule (cfg : ConfigM)
    (usedExports : List (Path × List String)) (reachable : List Path)
    (entryPoints : List Path) (p : Path) (m : ModuleM) :
    List UnusedExportM × List UnusedTypeM :=
  if !(reachable.contains p) then ([], [])
  else
    let usedInFile := usedLookup usedExports p
    let isEntry := entryPoints.contains p
    let rel := relDisplay cfg.root p
    let shouldIgnoreAll :=
      match cfg.ignoreExports.find? (fun kv => kv.1.key == "**/*") with
      | some kv => kv.2.contains "*"
      | none => false
    if shouldIgnoreAll then ([], [])
    else
      let fileIgnorePatterns :=
        (cfg.ignoreExports.filter fun kv =>
          match kv.1.glob with
          | some mt => mt rel
          | none => false).flatMap Prod.snd
      m.exports.foldl
        (fun acc ex =>
          if ex.isDefault && isEntry && !cfg.includeEntryExports then acc
          else if fileIgnorePatterns.contains ex.name ||
              fileIgnorePatterns.contains "*" then acc
          else
            let isUsed :=
              match usedInFile with
              | some used =>
                used.contains ex.name || used.contains "*" ||
                  (ex.isDefault && used.contains "default")
              | none => false
            if isUsed then acc
            else if cfg.ignoreExportsUsedInFile then acc
            else if ex.isType then
              (acc.1,
                acc.2 ++ [{ path := p, name := ex.name, line := ex.line,
                            col := ex.col, kind := typeKindOf ex.kind }])
            else
              (acc.1 ++ [{ path := p, name := ex.name, line := ex.line,
                           col := ex.col, kind := convertExportKind ex.kind,
                           isType := ex.isType }], acc.2))
        ([], [])

/-- `find_unused_exports`. -/
def findUnusedExports (g : ModuleGraphM) (cfg : ConfigM) :
    List UnusedExportM × List UnusedTypeM :=
  let usedExports := getUsedExports g
  let reachable := getReachableFiles g
  let collected := g.modules.foldl
    (fun acc pm =>
      let (es, ts) := unusedExportsOfModule cfg usedExports reachable
        g.entryPoints pm.1 pm.2
      (acc.1 ++ es, acc.2 ++ ts))
    ([], [])
  (stableSort (fun a b => pathLineLeB a.path a.line b.path b.line) collected.1,
    stableSort (fun a b => pathLineLeB a.path a.line b.path b.line) collected.2)

/-- `is_builtin_module`. -/
def isBuiltinModule (name : String) : Bool :=
  ["assert", "buffer", "child_process", "cluster", "console", "constants",
   "crypto", "dgram", "dns", "domain", "events", "fs", "http", "http2",
   "https", "inspector", "module", "net", "os", "path", "perf_hooks",
   "process", "punycode", "querystring", "readline", "repl", "stream",
   "string_decoder", "sys", "timers", "tls", "trace_events", "tty", "url",
   "util", "v8", "vm", "wasi", "worker_threads", "zlib"].contains name ||
    strStarts name "node:"

/-- The union of the four dependency sections, read by
`find_unresolved_imports`. -/
def allDepsOf (pkg : PkgJsonM) : List String :=
  pkg.dependencies ++ pkg.devDependencies ++ pkg.peerDependencies ++
    pkg.optionalDependencies

/-- The inner import loop of `find_unresolved_imports` for one module:
exactly one diagnostic per relative import that failed to resolve, and
one per declared-or-builtin external import that failed to resolve and is
not builtin. -/
def collectUnresolvedModule (allDeps : List String) (m : ModuleM) :
    List UnresolvedImportM :=
  m.imports.filterMap fun ri =>
    let specifier := ri.original.specifier
    if isRelativeSpec specifier then
      if ri.resolvedPath.isNone then
        some { path := m.path, specifier := specifier,
               line := ri.original.line, col := ri.original.col }
      else none
    else
      match ri.packageName with
      | some pkgName =>
        if !(allDeps.contains pkgName) && !(isBuiltinModule pkgName) then none
        else if ri.resolvedPath.isNone && !(isBuiltinModule pkgName) then
          some { path := m.path, specifier := specifier,
                 line := ri.original.line, col := ri.original.col }
        else none
      | none => none

/-- `find_unresolved_imports`: with no manifest the function returns the
empty vector before looking at any import. -/
def findUnresolvedImports (g : ModuleGraphM) (cfg : ConfigM) :
    List UnresolvedImportM :=
  match cfg.packageJson with
  | none => []
  | some pkg =>
    let allDeps := allDepsOf pkg
    let unresolved :=
      g.modules.flatMap fun pm => collectUnresolvedModule allDeps pm.2
    stableSort (fun a b => pathLineLeB a.path a.line b.path b.line) unresolved

/-! ### Specification-side definition for the package-name claim

`packageNameSpecL` transcribes the specification sentence for
`get_package_name` (claim C8) word for word, to be compared with the
implementation above: for a leading-`@` specifier containing `/`, the
first two slash-delimited segments joined by `/`; otherwise the prefix
before the first `/`, or the whole specifier if it has no `/`; `none` for
relative and absolute specifiers. -/

/-- Full split of a character list on `/`. -/
def splitSlashes : List Char → List (List Char)
  | [] => [[]]
  | c :: rest =>
    if c = '/' then [] :: splitSlashes rest
    else
      match splitSlashes rest with
      | [] => [[c]]
      | s :: ss => (c :: s) :: ss

/-- The package-name function as the specification describes it. -/
def packageNameSpecL (cs : List Char) : Option (List Char) :=
  if relTestL cs || absTestL cs then none
  else if cs.head? = some '@' then
    if cs.contains '/' then
      match splitSlashes cs with
      | a :: b :: _ => some (a ++ '/' :: b)
      | _ => some cs
    else some cs
  else if cs.contains '/' then some (cs.takeWhile (fun c => c ≠ '/'))
  else some cs

/-! ### Concrete fixtures

End-to-end inputs for the specification's scenarios, written as the swc
ASTs of the stated source files.  A generic expression or initializer
that no extractor inspects is `ExprA.otherE`. -/

/-- Baseline configuration: project root `/p`, no config file settings,
no tsconfig, no manifest.  The `ignore_exports_used_in_file` flag is the
parameter. -/
def cfgBase (flag : Bool) : ConfigM :=
  { root := ["p"]
    entry := []
    projectPats := []
    ignoreFiles := []
    ignore := []
    ignoreExports := []
    ignoreExportsUsedInFile := flag
    includeEntryExports := false
    ignoreDependencies := []
    resolverPaths := []
    baseUrl := none
    packageJson := none }

/-- Scenario 1, `src/index.ts`:
`import {a} from "./u";` then `export const main = a;`. -/
def astIndex1 : Ast :=
  [.moduleDecl (.importD
    { src := "./u", typeOnly := false,
      specifiers := [.named none "a" false], line := 1, col := 1 }),
   .moduleDecl (.exportDecl
    (.varD .constV [.mk (.identPat "main") (some .otherE)]) 2 1)]

/-- Scenario 1, `src/u.ts`:
`export const a = 1;` then `export const b = 2;`. -/
def astU1 : Ast :=
  [.moduleDecl (.exportDecl
    (.varD .constV [.mk (.identPat "a") (some .otherE)]) 1 1),
   .moduleDecl (.exportDecl
    (.varD .constV [.mk (.identPat "b") (some .otherE)]) 2 1)]

/-- Scenario 1 filesystem. -/
def fs1 : FileSys :=
  { files :=
      [(["p", "src", "index.ts"], { hash := 1, mtime := 0, ast := some astIndex1 }),
       (["p", "src", "u.ts"], { hash := 2, mtime := 0, ast := some astU1 })]
    dirs := []
    pkgJsons := [] }

/-- Scenario 1 graph (default build options, no cache). -/
def graph1 : ModuleGraphM :=
  buildGraphWithOptions fs1 (cfgBase true) BuildOptionsM.defaultB

/-- Scenario 2, `src/index.ts`:
`export async function run() { const m = await import("./plugin"); return m; }`
— the dynamic import sits inside the body of an exported function
declaration. -/
def astIndex2 : Ast :=
  [.moduleDecl (.exportDecl
    (.fnD "run"
      [.declStmt (.varD .constV
        [.mk (.identPat "m")
          (some (.awaitE (.call .importC [.lit (.strL "./plugin")] 1 41)))]),
       .ret (some .otherE)])
    1 1)]

/-- Scenario 2, `src/plugin.ts`: `export const x = 1;`. -/
def astPlugin2 : Ast :=
  [.moduleDecl (.exportDecl
    (.varD .constV [.mk (.identPat "x") (some .otherE)]) 1 1)]

/-- Scenario 2 filesystem. -/
def fs2 : FileSys :=
  { files :=
      [(["p", "src", "index.ts"], { hash := 1, mtime := 0, ast := some astIndex2 }),
       (["p", "src", "plugin.ts"], { hash := 2, mtime := 0, ast := some astPlugin2 })]
    dirs := []
    pkgJsons := [] }

/-- Scenario 2 graph. -/
def graph2 : ModuleGraphM :=
  buildGraphWithOptions fs2 (cfgBase true) BuildOptionsM.defaultB

/-- Scenario 5, `src/index.ts`: `export * from "./barrel";`. -/
def astIndex5 : Ast :=
  [.moduleDecl (.exportAll "./barrel" false 1 1)]

/-- Scenario 5, `src/barrel.ts`: `export {x} from "./inner";`. -/
def astBarrel5 : Ast :=
  [.moduleDecl (.exportNamed
    { src := some "./inner", typeOnly := false,
      specifiers := [.namedE (.identE "x") none false], line := 1, col := 1 })]

/-- Scenario 5, `src/inner.ts`:
`export const x = 1; export const y = 2;`. -/
def astInner5 : Ast :=
  [.moduleDecl (.exportDecl
    (.varD .constV [.mk (.identPat "x") (some .otherE)]) 1 1),
   .moduleDecl (.exportDecl
    (.varD .constV [.mk (.identPat "y") (some .otherE)]) 1 21)]

/-- Scenario 5 filesystem. -/
def fs5 : FileSys :=
  { files :=
      [(["p", "src", "index.ts"], { hash := 1, mtime := 0, ast := some astIndex5 }),
       (["p", "src", "barrel.ts"], { hash := 2, mtime := 0, ast := some astBarrel5 }),
       (["p", "src", "inner.ts"], { hash := 3, mtime := 0, ast := some astInner5 })]
    dirs := []
    pkgJsons := [] }

/-- Scenario 5 graph. -/
def graph5 : ModuleGraphM :=
  buildGraphWithOptions fs5 (cfgBase true) BuildOptionsM.defaultB

/-- A project whose only file has one unresolvable relative import:
`import {a} from "./missing";`. -/
def astIndexU : Ast :=
  [.moduleDecl (.importD
    { src := "./missing", typeOnly := false,
      specifiers := [.named none "a" false], line := 1, col := 1 })]

/-- Filesystem for the unresolved-import project. -/
def fsU : FileSys :=
  { files :=
      [(["p", "src", "index.ts"], { hash := 1, mtime := 0, ast := some astIndexU })]
    dirs := []
    pkgJsons := [] }

/-- Graph of the unresolved-import project. -/
def graphU : ModuleGraphM :=
  buildGraphWithOptions fsU (cfgBase true) BuildOptionsM.defaultB

/-- An empty manifest (present but declaring nothing). -/
def pkgEmpty : PkgJsonM :=
  { mainField := none, dependencies := [], devDependencies := [],
    peerDependencies := [], optionalDependencies := [] }

/-- The unresolved-import configuration with a manifest present. -/
def cfgUWithPkg : ConfigM :=
  { cfgBase true with packageJson := some pkgEmpty }

/-- A project importing the external package `lodash`, which resolves
under `node_modules` (outside the graph): `import {m} from "lodash";`. -/
def astIndexNm : Ast :=
  [.moduleDecl (.importD
    { src := "lodash", typeOnly := false,
      specifiers := [.named none "m" false], line := 1, col := 1 })]

/-- Filesystem with an installed `lodash` under `/p/node_modules`. -/
def fsNm : FileSys :=
  { files :=
      [(["p", "src", "index.ts"], { hash := 1, mtime := 0, ast := some astIndexNm }),
       (["p", "node_modules", "lodash", "index.js"],
        { hash := 9, mtime := 0, ast := none })]
    dirs := [["p", "node_modules"], ["p", "node_modules", "lodash"]]
    pkgJsons := [] }

/-- Graph of the `lodash` project. -/
def graphNm : ModuleGraphM :=
  buildGraphWithOptions fsNm (cfgBase true) BuildOptionsM.defaultB

/-- A project whose single (entry) file fails to parse. -/
def fsBadParse : FileSys :=
  { files := [(["p", "src", "index.ts"], { hash := 1, mtime := 0, ast := none })]
    dirs := []
    pkgJsons := [] }

/-- Graph of the parse-failure project. -/
def graphBadParse : ModuleGraphM :=
  buildGraphWithOptions fsBadParse (cfgBase true) BuildOptionsM.defaultB

/-- A three-entry cache at capacity one, used to exercise eviction. -/
def cacheEvictFixture : Cache :=
  { config := { maxEntries := 1 }
    entries :=
      [("/a.ts", { contentHash := 1, modifiedTime := 5, imports := [],
                   exports := [], reExports := [] }),
       ("/b.ts", { contentHash := 2, modifiedTime := 1, imports := [],
                   exports := [], reExports := [] })] }

/-- The entry inserted into `cacheEvictFixture`. -/
def cacheEvictEntry : CacheEntry :=
  { contentHash := 3, modifiedTime := 3, imports := [], exports := [],
    reExports := [] }

/-- The scenario-1 module of `src/index.ts`, looked up from the graph. -/
def module1Index : ModuleM :=
  (modulesGet graph1.modules ["p", "src", "index.ts"]).getD
    { path := [], imports := [], exports := [], reExports := [] }

/-- The single resolved import of `module1Index`. -/
def import1Index : ResolvedImportM :=
  module1Index.imports.getD 0
    { original := { specifier := "", importedNames := [], isTypeOnly := false,
                    isSideEffect := false, line := 0, col := 0 }
      resolvedPath := none
      packageName := none }

/-! ### Lemmas about the stable sort -/

theorem insertStable_perm (le : α → α → Bool) (a : α) :
    ∀ l : List α, (insertStable le a l).Perm (a :: l)
  | [] => List.Perm.refl _
  | b :: l => by
    unfold insertStable
    by_cases h : le b a = true
    · simp only [h, if_true]
      exact ((insertStable_perm le a l).cons b).trans (List.Perm.swap a b l)
    · simp only [h]
      simp

theorem mem_insertStable (le : α → α → Bool) (a x : α) (l : List α) :
    x ∈ insertStable le a l ↔ x = a ∨ x ∈ l := by
  rw [(insertStable_perm le a l).mem_iff]
  simp

theorem pairwise_insertStable (le : α → α → Bool)
    (htot : ∀ a b, le a b = true ∨ le b a = true)
    (htrans : ∀ a b c, le a b = true → le b c = true → le a c = true)
    (a : α) :
    ∀ l : List α, l.Pairwise (fun x y => le x y = true) →
      (insertStable le a l).Pairwise (fun x y => le x y = true)
  | [], _ => by simp [insertStable]
  | b :: l, h => by
    unfold insertStable
    rcases List.pairwise_cons.mp h with ⟨hb, hl⟩
    by_cases hba : le b a = true
    · simp only [hba, if_true]
      refine List.pairwise_cons.mpr ⟨?_, pairwise_insertStable le htot htrans a l hl⟩
      intro x hx
      rcases (mem_insertStable le a x l).mp hx with rfl | hx
      · exact hba
      · exact hb x hx
    · simp only [hba]
      simp only [Bool.false_eq_true, if_false]
      have hab : le a b = true := (htot a b).resolve_right (by simpa using hba)
      refine List.pairwise_cons.mpr ⟨?_, h⟩
      intro x hx
      rcases List.mem_cons.mp hx with rfl | hx
      · exact hab
      · exact htrans a b x hab (hb x hx)

theorem foldl_insertStable_perm (le : α → α → Bool) :
    ∀ (l acc : List α),
      (l.foldl (fun acc a => insertStable le a acc) acc).Perm (acc ++ l)
  | [], acc => by simp
  | x :: t, acc => by
    simp only [List.foldl_cons]
    refine (foldl_insertStable_perm le t (insertStable le x acc)).trans ?_
    refine (((insertStable_perm le x acc).append_right t).trans ?_)
    exact (@List.perm_middle _ x acc t).symm

theorem stableSort_perm (le : α → α → Bool) (l : List α) :
    (stableSort le l).Perm l := by
  simpa [stableSort] using foldl_insertStable_perm le l []

theorem pairwise_foldl_insertStable (le : α → α → Bool)
    (htot : ∀ a b, le a b = true ∨ le b a = true)
    (htrans : ∀ a b c, le a b = true → le b c = true → le a c = true) :
    ∀ (l acc : List α), acc.Pairwise (fun x y => le x y = true) →
      (l.foldl (fun acc a => insertStable le a acc) acc).Pairwise
        (fun x y => le x y = true)
  | [], _, h => h
  | x :: t, acc, h => by
    simp only [List.foldl_cons]
    exact pairwise_foldl_insertStable le htot htrans t _
      (pairwise_insertStable le htot htrans x acc h)

theorem pairwise_stableSort (le : α → α → Bool)
    (htot : ∀ a b, le a b = true ∨ le b a = true)
    (htrans : ∀ a b c, le a b = true → le b c = true → le a c = true)
    (l : List α) :
    (stableSort le l).Pairwise (fun x y => le x y = true) :=
  pairwise_foldl_insertStable le htot htrans l [] (List.Pairwise.nil)

/-! ### Lemmas about the comparators -/

theorem strLtL_trans :
    ∀ a b c : List Char, strLtL a b = true → strLtL b c = true →
      strLtL a c = true
  | [], [], _, h, _ => by simp [strLtL] at h
  | [], _ :: _, [], _, h => by simp [strLtL] at h
  | [], _ :: _, _ :: _, _, _ => by simp [strLtL]
  | _ :: _, [], _, h, _ => by simp [strLtL] at h
  | _ :: _, _ :: _, [], _, h => by simp [strLtL] at h
  | a :: as, b :: bs, c :: cs, h₁, h₂ => by
    simp only [strLtL] at h₁ h₂ ⊢
    by_cases hab : a < b
    · by_cases hbc : b < c
      · simp [lt_trans hab hbc]
      · by_cases hcb : c < b
        · simp [hbc, hcb] at h₂
        · have : b = c := le_antisymm (not_lt.mp hcb) (not_lt.mp hbc)
          subst this
          simp [hab]
    · by_cases hba : b < a
      · simp [hab, hba] at h₁
      · have : a = b := le_antisymm (not_lt.mp hba) (not_lt.mp hab)
        subst this
        by_cases hbc : a < c
        · simp [hbc]
        · by_cases hcb : c < a
          · simp [hbc, hcb] at h₂
          · have : a = c := le_antisymm (not_lt.mp hcb) (not_lt.mp hbc)
            subst this
            simp only [lt_irrefl, if_false, ite_self] at h₁ h₂ ⊢
            exact strLtL_trans as bs cs (by simpa using h₁) (by simpa using h₂)

theorem strLtL_conn :
    ∀ a b : List Char, strLtL a b = false → strLtL b a = false → a = b
  | [], [], _, _ => rfl
  | [], _ :: _, h, _ => by simp [strLtL] at h
  | _ :: _, [], _, h => by simp [strLtL] at h
  | a :: as, b :: bs, h₁, h₂ => by
    simp only [strLtL] at h₁ h₂
    by_cases hab : a < b
    · simp [hab] at h₁
    · by_cases hba : b < a
      · simp [hab, hba] at h₂
      · have : a = b := le_antisymm (not_lt.mp hba) (not_lt.mp hab)
        subst this
        simp only [lt_irrefl, if_false, ite_self] at h₁ h₂
        rw [strLtL_conn as bs (by simpa using h₁) (by simpa using h₂)]

theorem strLtB_trans (a b c : String) (h₁ : strLtB a b = true)
    (h₂ : strLtB b c = true) : strLtB a c = true :=
  strLtL_trans a.data b.data c.data h₁ h₂

theorem strLtB_conn (a b : String) (h₁ : strLtB a b = false)
    (h₂ : strLtB b a = false) : a = b := by
  cases a with
  | mk da =>
    cases b with
    | mk db =>
      have := strLtL_conn da db h₁ h₂
      simp_all

theorem pathLtB_trans :
    ∀ a b c : Path, pathLtB a b = true → pathLtB b c = true →
      pathLtB a c = true
  | [], [], _, h, _ => by simp [pathLtB] at h
  | [], _ :: _, [], _, h => by simp [pathLtB] at h
  | [], _ :: _, _ :: _, _, _ => by simp [pathLtB]
  | _ :: _, [], _, h, _ => by simp [pathLtB] at h
  | _ :: _, _ :: _, [], _, h => by simp [pathLtB] at h
  | a :: as, b :: bs, c :: cs, h₁, h₂ => by
    simp only [pathLtB] at h₁ h₂ ⊢
    by_cases hab : strLtB a b = true
    · by_cases hbc : strLtB b c = true
      · simp [strLtB_trans a b c hab hbc]
      · by_cases hcb : strLtB c b = true
        · simp [hbc, hcb] at h₂
        · have : b = c := strLtB_conn b c (by simpa using hbc) (by simpa using hcb)
          subst this
          simp [hab]
    · by_cases hba : strLtB b a = true
      · simp [hab, hba] at h₁
      · have : a = b := strLtB_conn a b (by simpa using hab) (by simpa using hba)
        subst this
        by_cases hbc : strLtB a c = true
        · simp [hbc]
        · by_cases hcb : strLtB c a = true
          · simp [hbc, hcb] at h₂
          · have : a = c := strLtB_conn a c (by simpa using hbc) (by simpa using hcb)
            subst this
            simp only [hbc, if_false] at h₁ h₂ ⊢
            simp only [Bool.false_eq_true, if_false, ite_self] at h₁ h₂ ⊢
            exact pathLtB_trans as bs cs (by simpa using h₁) (by simpa using h₂)

theorem pathLtB_conn :
    ∀ a b : Path, pathLtB a b = false → pathLtB b a = false → a = b
  | [], [], _, _ => rfl
  | [], _ :: _, h, _ => by simp [pathLtB] at h
  | _ :: _, [], _, h => by simp [pathLtB] at h
  | a :: as, b :: bs, h₁, h₂ => by
    simp only [pathLtB] at h₁ h₂
    by_cases hab : strLtB a b = true
    · simp [hab] at h₁
    · by_cases hba : strLtB b a = true
      · simp [hab, hba] at h₂
      · have : a = b := strLtB_conn a b (by simpa using hab) (by simpa using hba)
        subst this
        simp only [hab, Bool.false_eq_true, if_false, ite_self] at h₁ h₂
        rw [pathLtB_conn as bs (by simpa using h₁) (by simpa using h₂)]

theorem pathLineLeB_total (pa : Path) (la : Nat) (pb : Path) (lb : Nat) :
    pathLineLeB pa la pb lb = true ∨ pathLineLeB pb lb pa la = true := by
  unfold pathLineLeB
  by_cases hab : pathLtB pa pb = true
  · left; simp [hab]
  · by_cases hba : pathLtB pb pa = true
    · right; simp [hba]
    · have : pa = pb := pathLtB_conn pa pb (by simpa using hab) (by simpa using hba)
      subst this
      rcases Nat.le_total la lb with h | h
      · left; simp [Nat.ble_eq, h]
      · right; simp [Nat.ble_eq, h]

theorem pathLineLeB_trans (pa : Path) (la : Nat) (pb : Path) (lb : Nat)
    (pc : Path) (lc : Nat) (h₁ : pathLineLeB pa la pb lb = true)
    (h₂ : pathLineLeB pb lb pc lc = true) : pathLineLeB pa la pc lc = true := by
  unfold pathLineLeB at h₁ h₂ ⊢
  rcases Bool.or_eq_true_iff.mp h₁ with hlt₁ | heq₁
  · rcases Bool.or_eq_true_iff.mp h₂ with hlt₂ | heq₂
    · simp [pathLtB_trans pa pb pc hlt₁ hlt₂]
    · rcases Bool.and_eq_true_iff.mp heq₂ with ⟨hpe, _⟩
      have : pb = pc := by simpa using hpe
      subst this
      simp [hlt₁]
  · rcases Bool.and_eq_true_iff.mp heq₁ with ⟨hpe, hle₁⟩
    have : pa = pb := by simpa using hpe
    subst this
    rcases Bool.or_eq_true_iff.mp h₂ with hlt₂ | heq₂
    · simp [hlt₂]
    · rcases Bool.and_eq_true_iff.mp heq₂ with ⟨hpe₂, hle₂⟩
      have : pa = pc := by simpa using hpe₂
      subst this
      have : la ≤ lc :=
        Nat.le_trans (Nat.ble_eq.mp hle₁) (Nat.ble_eq.mp hle₂)
      simp [Nat.ble_eq, this]

/-! ### The resolver returns only existing paths -/

theorem isFile_pathExists (fs : FileSys) (p : Path) (h : fs.isFile p = true) :
    fs.pathExists p = true := by
  simp [FileSys.pathExists, h]

theorem findExtReplace_exists (fs : FileSys) (path q : Path)
    (h : findExtReplace fs path = some q) : fs.pathExists q = true := by
  obtain ⟨ext, _, hf⟩ := List.exists_of_findSome?_eq_some h
  by_cases hw : fs.isFile (rustWithExtension path (String.mk ext.data.tail)) = true
  · simp only [hw, if_true] at hf
    cases hf
    exact isFile_pathExists fs _ hw
  · simp [hw] at hf

theorem findExtAppend_exists (fs : FileSys) (path q : Path)
    (h : findExtAppend fs path = some q) : fs.pathExists q = true := by
  obtain ⟨ext, _, hf⟩ := List.exists_of_findSome?_eq_some h
  by_cases hw : fs.isFile (appendToLast path ext) = true
  · simp only [hw, if_true] at hf
    cases hf
    exact isFile_pathExists fs _ hw
  · simp [hw] at hf

theorem findIndexIn_exists (fs : FileSys) (dir q : Path)
    (h : findIndexIn fs dir = some q) : fs.pathExists q = true := by
  obtain ⟨idx, _, hf⟩ := List.exists_of_findSome?_eq_some h
  by_cases hw : fs.pathExists (dir ++ [idx]) = true
  · simp only [hw, if_true] at hf
    cases hf
    exact hw
  · simp [hw] at hf

theorem tryResolveFile_exists (fs : FileSys) (path q : Path)
    (h : tryResolveFile fs path = some q) : fs.pathExists q = true := by
  unfold tryResolveFile at h
  by_cases h₁ : fs.isFile path = true
  · simp only [h₁, if_true] at h
    cases h
    exact isFile_pathExists fs _ h₁
  · simp only [h₁] at h
    simp only [Bool.false_eq_true, if_false] at h
    cases hr : findExtReplace fs path with
    | some w =>
      rw [hr] at h
      cases h
      exact findExtReplace_exists fs path _ hr
    | none =>
      rw [hr] at h
      cases ha : findExtAppend fs path with
      | some w =>
        rw [ha] at h
        cases h
        exact findExtAppend_exists fs path _ ha
      | none =>
        rw [ha] at h
        by_cases hd : fs.isDir path = true
        · simp only [hd, if_true] at h
          exact findIndexIn_exists fs path q h
        · simp [hd] at h

theorem resolvePackageEntry_exists (fs : FileSys) (pkgDir : Path)
    (sub : Option String) (q : Path)
    (h : resolvePackageEntry fs pkgDir sub = some q) :
    fs.pathExists q = true := by
  unfold resolvePackageEntry at h
  cases sub with
  | some s => exact tryResolveFile_exists fs _ q h
  | none =>
    simp only at h
    split at h
    · rename_i p heq
      cases h
      split at heq
      · rename_i fields hm
        obtain ⟨fld, _, hf⟩ := List.exists_of_findSome?_eq_some heq
        cases fld with
        | some entry => exact tryResolveFile_exists fs _ _ hf
        | none => simp at hf
      · cases heq
    · exact findIndexIn_exists fs pkgDir q h

theorem nmAttempt_exists (fs : FileSys) (specifier : String) (current q : Path)
    (h : nmAttempt fs specifier current = some q) : fs.pathExists q = true := by
  unfold nmAttempt at h
  by_cases h₁ : fs.isDir (current ++ ["node_modules"]) = true
  · simp only [h₁, if_true] at h
    by_cases h₂ : fs.isDir
        ((current ++ ["node_modules"]) ++
          splitSpec (parsePackageSpecifier specifier).1) = true
    · rw [if_pos h₂] at h
      exact resolvePackageEntry_exists fs _ _ q h
    · rw [if_neg h₂] at h
      cases h
  · simp [h₁] at h

theorem nmAscend_exists (fs : FileSys) (specifier : String) :
    ∀ (cur : List String) (q : Path), nmAscend fs specifier cur = some q →
      fs.pathExists q = true
  | [], q, h => nmAttempt_exists fs specifier [] q h
  | s :: rest, q, h => by
    unfold nmAscend at h
    cases ha : nmAttempt fs specifier ((s :: rest).reverse) with
    | some p =>
      rw [ha] at h
      cases h
      exact nmAttempt_exists fs specifier _ q ha
    | none =>
      rw [ha] at h
      exact nmAscend_exists fs specifier rest q h

theorem resolvePathAlias_exists (fs : FileSys) (r : ModuleResolver)
    (specifier : String) (q : Path)
    (h : resolvePathAlias fs r specifier = some q) : fs.pathExists q = true := by
  obtain ⟨pr, _, hf⟩ := List.exists_of_findSome?_eq_some h
  cases hm : matchPathPattern pr.1 specifier with
  | some matched =>
    rw [hm] at hf
    obtain ⟨repl, _, hg⟩ := List.exists_of_findSome?_eq_some hf
    exact tryResolveFile_exists fs _ q hg
  | none =>
    rw [hm] at hf
    cases hf

theorem resolve_exists (fs : FileSys) (r : ModuleResolver) (specifier : String)
    (frm : Path) (q : Path) (h : resolve fs r specifier frm = some q) :
    fs.pathExists q = true := by
  unfold resolve at h
  cases ha : resolvePathAlias fs r specifier with
  | some p =>
    rw [ha] at h
    cases h
    exact resolvePathAlias_exists fs r specifier q ha
  | none =>
    rw [ha] at h
    by_cases hrel : isRelativeSpec specifier = true
    · simp only [hrel, if_true] at h
      unfold resolveRelative at h
      cases hp : parentPath frm with
      | none => rw [hp] at h; cases h
      | some baseDir =>
        rw [hp] at h
        exact tryResolveFile_exists fs _ q h
    · simp only [hrel] at h
      simp only [Bool.false_eq_true, if_false] at h
      by_cases habs : isAbsoluteSpec specifier = true
      · simp only [habs, if_true] at h
        exact tryResolveFile_exists fs _ q h
      · simp only [habs] at h
        simp only [Bool.false_eq_true, if_false] at h
        cases hb : r.baseUrl with
        | some baseUrl =>
          rw [hb] at h
          simp only at h
          cases hfb : resolveFromBase fs specifier baseUrl with
          | some p =>
            rw [hfb] at h
            cases h
            exact tryResolveFile_exists fs _ q hfb
          | none =>
            rw [hfb] at h
            unfold resolveNodeModules at h
            cases hp : parentPath frm with
            | none => rw [hp] at h; cases h
            | some start =>
              rw [hp] at h
              exact nmAscend_exists fs specifier start.reverse q h
        | none =>
          rw [hb] at h
          simp only at h
          unfold resolveNodeModules at h
          cases hp : parentPath frm with
          | none => rw [hp] at h; cases h
          | some start =>
            rw [hp] at h
            exact nmAscend_exists fs specifier start.reverse q h

/-! ### Lemmas about the graph assembly -/

theorem assembleModulesList_imports (fs : FileSys) (r : ModuleResolver) :
    ∀ (parsed : List (Path × ParsedModule)) (p : Path) (m : ModuleM),
      (p, m) ∈ assembleModulesList fs r parsed →
      ∀ ri ∈ m.imports,
        ri.resolvedPath = resolve fs r ri.original.specifier p
  | [], p, m, h => by simp [assembleModulesList] at h
  | (q, pm) :: rest, p, m, h => by
    rw [assembleModulesList] at h
    rcases List.mem_cons.mp h with h | h
    · rcases Prod.mk.injEq .. ▸ h with ⟨rfl, rfl⟩
      intro ri hri
      simp only [List.mem_map] at hri
      obtain ⟨i, _, rfl⟩ := hri
      rfl
    · exact assembleModulesList_imports fs r rest p m h

theorem assembleModulesList_keys (fs : FileSys) (r : ModuleResolver) :
    ∀ (parsed : List (Path × ParsedModule)) (p : Path) (pm : ParsedModule),
      (p, pm) ∈ parsed →
      modulesContains (assembleModulesList fs r parsed) p = true
  | [], p, pm, h => by simp at h
  | (q, qm) :: rest, p, pm, h => by
    rw [assembleModulesList]
    simp only [modulesContains, List.any_cons, Bool.or_eq_true]
    rcases List.mem_cons.mp h with h | h
    · rcases Prod.mk.injEq .. ▸ h with ⟨rfl, rfl⟩
      left
      simp
    · right
      exact assembleModulesList_keys fs r rest p pm h

theorem parseWithCache_produces (fs : FileSys) (c : Cache) (p : Path)
    (sf : SrcFile) (a : Ast) (hr : fs.readFile p = some sf)
    (ha : sf.ast = some a) :
    ∃ pm c2, parseWithCache fs c p = (some (p, pm), c2) := by
  unfold parseWithCache
  rw [hr]
  simp only
  cases hhit : c.get p with
  | some entry =>
    by_cases hh : (entry.contentHash == sf.hash) = true
    · simp only [hh, if_true]
      exact ⟨_, _, rfl⟩
    · simp only [hh]
      simp only [Bool.false_eq_true, if_false, ha]
      exact ⟨_, _, rfl⟩
  | none =>
    simp only [ha]
    exact ⟨_, _, rfl⟩

theorem parseAllWithCache_mem (fs : FileSys) (p : Path) (sf : SrcFile)
    (a : Ast) (hr : fs.readFile p = some sf) (ha : sf.ast = some a) :
    ∀ (pfs : List Path) (c : Cache), p ∈ pfs →
      ∃ pm, (p, pm) ∈ parseAllWithCache fs c pfs
  | [], _, h => by simp at h
  | q :: rest, c, h => by
    rcases List.mem_cons.mp h with rfl | h
    · obtain ⟨pm, c2, heq⟩ := parseWithCache_produces fs c p sf a hr ha
      refine ⟨pm, ?_⟩
      rw [parseAllWithCache, heq]
      exact List.mem_cons_self _ _
    · rcases hres : parseWithCache fs c q with ⟨res, c2⟩
      obtain ⟨pm, hpm⟩ := parseAllWithCache_mem fs p sf a hr ha rest c2 h
      refine ⟨pm, ?_⟩
      rw [parseAllWithCache, hres]
      cases res with
      | some pr => exact List.mem_cons_of_mem _ hpm
      | none => exact hpm

theorem parseStage_mem (fs : FileSys) (opts : BuildOptionsM)
    (projectFiles : List Path) (p : Path) (sf : SrcFile) (a : Ast)
    (hp : p ∈ projectFiles) (hr : fs.readFile p = some sf)
    (ha : sf.ast = some a) :
    ∃ pm, (p, pm) ∈ parseStage fs opts projectFiles := by
  unfold parseStage
  cases opts.cache with
  | some c => exact parseAllWithCache_mem fs p sf a hr ha projectFiles c hp
  | none =>
    refine ⟨extractModule a, ?_⟩
    simp only [List.mem_filterMap]
    exact ⟨p, hp, by simp [parseFile, hr, ha]⟩

theorem entryPatFiles_subset (root : Path) (projectFiles : List Path)
    (pat : EntryPat) (e : Path) (h : e ∈ entryPatFiles root projectFiles pat) :
    e ∈ projectFiles := by
  unfold entryPatFiles at h
  by_cases hok : pat.globOk = true
  · rw [if_pos hok] at h
    exact (List.mem_filter.mp h).1
  · rw [if_neg hok] at h
    by_cases hc : projectFiles.contains (joinPath root pat.raw) = true
    · rw [if_pos hc] at h
      rcases List.mem_singleton.mp h with rfl
      simpa using hc
    · rw [if_neg hc] at h
      cases h

theorem entriesFromConfig_subset (root : Path) (cfg : ConfigM)
    (projectFiles : List Path) (e : Path)
    (h : e ∈ entriesFromConfig root cfg projectFiles) : e ∈ projectFiles := by
  unfold entriesFromConfig at h
  by_cases he : cfg.entry.isEmpty = true
  · rw [if_pos he] at h
    cases h
  · rw [if_neg he] at h
    obtain ⟨pat, _, hmem⟩ := List.mem_flatMap.mp h
    exact entryPatFiles_subset root projectFiles pat e hmem

theorem entriesWithDefaults_subset (root : Path) (projectFiles : List Path)
    (entries : List Path) (hsub : ∀ x ∈ entries, x ∈ projectFiles) (e : Path)
    (h : e ∈ entriesWithDefaults root projectFiles entries) :
    e ∈ projectFiles := by
  unfold entriesWithDefaults at h
  by_cases he : entries.isEmpty = true
  · rw [if_pos he] at h
    cases hfind : defaultEntries.find?
        (fun en => projectFiles.contains (joinPath root en)) with
    | some en =>
      rw [hfind] at h
      rcases List.mem_singleton.mp h with rfl
      simpa using List.find?_some hfind
    | none =>
      rw [hfind] at h
      cases h
  · rw [if_neg he] at h
    exact hsub e h

theorem entriesWithMain_subset (root : Path) (cfg : ConfigM)
    (projectFiles : List Path) (entries : List Path)
    (hsub : ∀ x ∈ entries, x ∈ projectFiles) (e : Path)
    (h : e ∈ entriesWithMain root cfg projectFiles entries) :
    e ∈ projectFiles := by
  unfold entriesWithMain at h
  cases hpj : cfg.packageJson with
  | none =>
    rw [hpj] at h
    exact hsub e h
  | some pkg =>
    rw [hpj] at h
    simp only at h
    cases hmf : pkg.mainField with
    | none =>
      rw [hmf] at h
      exact hsub e h
    | some mn =>
      rw [hmf] at h
      simp only at h
      by_cases hc : (projectFiles.contains (joinPath root mn) &&
          !(entries.contains (joinPath root mn))) = true
      · rw [if_pos hc] at h
        rcases List.mem_append.mp h with h | h
        · exact hsub e h
        · rcases List.mem_singleton.mp h with rfl
          simpa using (Bool.and_eq_true_iff.mp hc).1
      · rw [if_neg hc] at h
        exact hsub e h

theorem findEntryPoints_subset (root : Path) (cfg : ConfigM)
    (projectFiles : List Path) (e : Path)
    (h : e ∈ findEntryPoints root cfg projectFiles) : e ∈ projectFiles := by
  unfold findEntryPoints at h
  exact entriesWithMain_subset root cfg projectFiles _
    (fun x hx => entriesWithDefaults_subset root projectFiles _
      (fun y hy => entriesFromConfig_subset root cfg projectFiles y hy) x hx)
    e h

/-! ### Lemmas for the blanket-flag behaviour of find_unused_exports -/

theorem foldl_const (f : β → α → β) (hf : ∀ acc x, f acc x = acc) :
    ∀ (l : List α) (acc : β), l.foldl f acc = acc
  | [], _ => rfl
  | x :: t, acc => by
    rw [List.foldl_cons, hf acc x]
    exact foldl_const f hf t acc

theorem unusedExportsOfModule_flag (cfg : ConfigM)
    (hflag : cfg.ignoreExportsUsedInFile = true)
    (usedExports : List (Path × List String)) (reachable : List Path)
    (entryPoints : List Path) (p : Path) (m : ModuleM) :
    unusedExportsOfModule cfg usedExports reachable entryPoints p m =
      ([], []) := by
  unfold unusedExportsOfModule
  split
  · rfl
  · simp only [hflag]
    split
    · rfl
    · exact foldl_const _ (by intro acc ex; simp) m.exports ([], [])

theorem findUnusedExports_flag (g : ModuleGraphM) (cfg : ConfigM)
    (hflag : cfg.ignoreExportsUsedInFile = true) :
    findUnusedExports g cfg = ([], []) := by
  unfold findUnusedExports
  simp only [unusedExportsOfModule_flag cfg hflag, List.append_nil]
  rw [foldl_const _ (fun _ _ => rfl)]
  rfl

/-! ### The cache round-trip -/

theorem exportKind_string_round (k : ExportKind) :
    exportKindOfString (exportKindDebug k) = k := by
  cases k <;> rfl

theorem import_cached_round (i : Import) :
    Import.ofCached (CachedImport.ofImport i) = i := by
  have hmap : ∀ l : List ImportedName,
      ((l.map fun n =>
          ({ name := n.name, aliasName := n.aliasName, isType := n.isType } :
            CachedImportedName)).map fun c =>
          ({ name := c.name, aliasName := c.aliasName, isType := c.isType } :
            ImportedName)) = l := by
    intro l
    induction l with
    | nil => rfl
    | cons x t ih => simp [ih]
  cases i
  simp [CachedImport.ofImport, Import.ofCached, hmap]

theorem export_cached_round (e : Export) :
    Export.ofCached (CachedExport.ofExport e) = e := by
  cases e
  simp [CachedExport.ofExport, Export.ofCached, exportKind_string_round]

theorem reExport_cached_round (r : ReExport) :
    ReExport.ofCached (CachedReExport.ofReExport r) = r := by
  have hmap : ∀ l : List ReExportedName,
      ((l.map fun n =>
          ({ name := n.name, aliasName := n.aliasName, isType := n.isType } :
            CachedReExportedName)).map fun c =>
          ({ name := c.name, aliasName := c.aliasName, isType := c.isType } :
            ReExportedName)) = l := by
    intro l
    induction l with
    | nil => rfl
    | cons x t ih => simp [ih]
  cases r
  simp [CachedReExport.ofReExport, ReExport.ofCached, hmap]

/-! ### Lemmas about specifier splitting (for the package-name claim) -/

theorem breakOnSlash_none :
    ∀ (cs a : List Char), breakOnSlash cs = (a, none) →
      a = cs ∧ cs.contains '/' = false
  | [], a, h => by
    simp only [breakOnSlash, Prod.mk.injEq] at h
    exact ⟨h.1.symm, rfl⟩
  | c :: rest, a, h => by
    simp only [breakOnSlash] at h
    by_cases hc : c = '/'
    · rw [if_pos hc] at h
      simp only [Prod.mk.injEq] at h
      exact absurd h.2 (by simp)
    · rw [if_neg hc] at h
      rcases hbr : breakOnSlash rest with ⟨a2, r2⟩
      rw [hbr] at h
      simp only [Prod.mk.injEq] at h
      obtain ⟨h1, h2⟩ := h
      cases r2 with
      | some r => exact absurd h2 (by simp)
      | none =>
        obtain ⟨ha2, hcon⟩ := breakOnSlash_none rest a2 hbr
        subst ha2
        refine ⟨h1.symm, ?_⟩
        rw [List.contains_cons, hcon]
        simp only [Bool.or_false]
        exact beq_eq_false_iff_ne.mpr (fun he => hc he.symm)

theorem breakOnSlash_some :
    ∀ (cs a r : List Char), breakOnSlash cs = (a, some r) →
      cs = a ++ '/' :: r ∧ cs.contains '/' = true
  | [], a, r, h => by
    simp only [breakOnSlash, Prod.mk.injEq] at h
    exact absurd h.2 (by simp)
  | c :: rest, a, r, h => by
    simp only [breakOnSlash] at h
    by_cases hc : c = '/'
    · rw [if_pos hc] at h
      simp only [Prod.mk.injEq, Option.some.injEq] at h
      obtain ⟨h1, h2⟩ := h
      subst h1
      subst h2
      subst hc
      refine ⟨rfl, ?_⟩
      rw [List.contains_cons]
      simp
    · rw [if_neg hc] at h
      rcases hbr : breakOnSlash rest with ⟨a2, r2⟩
      rw [hbr] at h
      simp only [Prod.mk.injEq] at h
      obtain ⟨h1, h2⟩ := h
      cases r2 with
      | none => exact absurd h2 (by simp)
      | some r0 =>
        simp only [Option.some.injEq] at h2
        subst h2
        obtain ⟨hdec, hcon⟩ := breakOnSlash_some rest a2 r0 hbr
        subst h1
        refine ⟨by rw [hdec]; rfl, ?_⟩
        rw [List.contains_cons, hcon]
        simp

theorem breakOnSlash_not_contains (cs : List Char)
    (hcon : cs.contains '/' = false) : breakOnSlash cs = (cs, none) := by
  rcases hbr : breakOnSlash cs with ⟨a, r2⟩
  cases r2 with
  | none =>
    obtain ⟨rfl, -⟩ := breakOnSlash_none cs a hbr
    rfl
  | some r =>
    obtain ⟨-, hc⟩ := breakOnSlash_some cs a r hbr
    rw [hcon] at hc
    cases hc

theorem splitSlashes_break_none (cs a : List Char)
    (h : breakOnSlash cs = (a, none)) : splitSlashes cs = [a] := by
  induction cs generalizing a with
  | nil =>
    simp only [breakOnSlash, Prod.mk.injEq] at h
    rw [← h.1]
    rfl
  | cons c rest ih =>
    simp only [breakOnSlash] at h
    by_cases hc : c = '/'
    · rw [if_pos hc] at h
      simp only [Prod.mk.injEq] at h
      exact absurd h.2 (by simp)
    · rw [if_neg hc] at h
      rcases hbr : breakOnSlash rest with ⟨a2, r2⟩
      rw [hbr] at h
      simp only [Prod.mk.injEq] at h
      obtain ⟨h1, h2⟩ := h
      cases r2 with
      | some r => exact absurd h2 (by simp)
      | none =>
        subst h1
        simp only [splitSlashes, hc, if_false]
        rw [ih a2 hbr]

theorem splitSlashes_break_some (cs a r : List Char)
    (h : breakOnSlash cs = (a, some r)) :
    splitSlashes cs = a :: splitSlashes r := by
  induction cs generalizing a r with
  | nil =>
    simp only [breakOnSlash, Prod.mk.injEq] at h
    exact absurd h.2 (by simp)
  | cons c rest ih =>
    simp only [breakOnSlash] at h
    by_cases hc : c = '/'
    · rw [if_pos hc] at h
      simp only [Prod.mk.injEq, Option.some.injEq] at h
      obtain ⟨h1, h2⟩ := h
      subst h1
      subst h2
      simp [splitSlashes, hc]
    · rw [if_neg hc] at h
      rcases hbr : breakOnSlash rest with ⟨a2, r2⟩
      rw [hbr] at h
      simp only [Prod.mk.injEq] at h
      obtain ⟨h1, h2⟩ := h
      cases r2 with
      | none => exact absurd h2 (by simp)
      | some r0 =>
        simp only [Option.some.injEq] at h2
        subst h2
        subst h1
        simp only [splitSlashes, hc, if_false]
        rw [ih a2 r0 hbr]

theorem takeWhile_break_some (cs a r : List Char)
    (h : breakOnSlash cs = (a, some r)) :
    cs.takeWhile (fun c => c ≠ '/') = a := by
  induction cs generalizing a r with
  | nil =>
    simp only [breakOnSlash, Prod.mk.injEq] at h
    exact absurd h.2 (by simp)
  | cons c rest ih =>
    simp only [breakOnSlash] at h
    by_cases hc : c = '/'
    · rw [if_pos hc] at h
      simp only [Prod.mk.injEq] at h
      obtain ⟨h1, -⟩ := h
      subst h1
      simp [List.takeWhile_cons, hc]
    · rw [if_neg hc] at h
      rcases hbr : breakOnSlash rest with ⟨a2, r2⟩
      rw [hbr] at h
      simp only [Prod.mk.injEq] at h
      obtain ⟨h1, h2⟩ := h
      cases r2 with
      | none => exact absurd h2 (by simp)
      | some r0 =>
        simp only [Option.some.injEq] at h2
        subst h2
        subst h1
        simp only [List.takeWhile_cons]
        rw [if_pos (by simpa using hc)]
        rw [ih a2 r0 hbr]

theorem take_two_segments :
    ∀ (p0 p1 rest : List Char),
      (p0 ++ '/' :: (p1 ++ '/' :: rest)).take (p0.length + 1 + p1.length) =
        p0 ++ '/' :: p1
  | [], p1, rest => by
    simp only [List.nil_append, List.length_nil, Nat.zero_add,
      Nat.add_comm 1 p1.length, List.take_succ_cons]
    congr 1
    exact List.take_left p1 ('/' :: rest)
  | c :: p0, p1, rest => by
    have hlen : (c :: p0).length + 1 + p1.length =
        (p0.length + 1 + p1.length) + 1 := by
      simp only [List.length_cons]
      omega
    rw [hlen]
    simp only [List.cons_append, List.take_succ_cons]
    rw [take_two_segments p0 p1 rest]

theorem getPackageName_spec_eq (s : String) :
    getPackageName s = (packageNameSpecL s.data).map (fun l => String.mk l) := by
  unfold getPackageName packageNameSpecL
  by_cases hra : (isRelativeSpec s || isAbsoluteSpec s) = true
  · rw [if_pos hra]
    rw [if_pos (show (relTestL s.data || absTestL s.data) = true from hra)]
    rfl
  · rw [if_neg hra]
    rw [if_neg (show ¬(relTestL s.data || absTestL s.data) = true from hra)]
    unfold parsePackageSpecifier parsePackageSpecifierL
    by_cases hh : s.data.head? = some '@'
    · rw [if_pos hh, if_pos hh]
      by_cases hcon : s.data.contains '/' = true
      · rw [if_pos hcon]
        rcases hbr : breakOnSlash s.data with ⟨p0, r2⟩
        cases r2 with
        | none =>
          obtain ⟨-, hc⟩ := breakOnSlash_none s.data p0 hbr
          rw [hcon] at hc
          cases hc
        | some r0 =>
          obtain ⟨hdec, -⟩ := breakOnSlash_some s.data p0 r0 hbr
          rw [splitSlashes_break_some s.data p0 r0 hbr]
          simp only
          rcases hbr2 : breakOnSlash r0 with ⟨p1, r3⟩
          cases r3 with
          | none =>
            obtain ⟨hp1, -⟩ := breakOnSlash_none r0 p1 hbr2
            subst hp1
            rw [splitSlashes_break_none p1 p1 hbr2]
            simp only [Option.map_some]
            exact congrArg (fun l => some (String.mk l)) hdec
          | some r1 =>
            obtain ⟨hdec2, -⟩ := breakOnSlash_some r0 p1 r1 hbr2
            rw [splitSlashes_break_some r0 p1 r1 hbr2]
            simp only [Option.map_some]
            exact congrArg (fun l => some (String.mk l))
              (by rw [hdec, hdec2]; exact take_two_segments p0 p1 r1)
      · rw [if_neg hcon]
        rw [breakOnSlash_not_contains s.data (by simpa using hcon)]
        rfl
    · rw [if_neg hh, if_neg hh]
      rcases hbr : breakOnSlash s.data with ⟨before, r2⟩
      cases r2 with
      | none =>
        obtain ⟨hb, hc⟩ := breakOnSlash_none s.data before hbr
        subst hb
        rw [if_neg (show ¬(s.data.contains '/' = true) by rw [hc]; simp)]
        rfl
      | some r0 =>
        obtain ⟨-, hc⟩ := breakOnSlash_some s.data before r0 hbr
        rw [if_pos hc]
        simp only [Option.map_some]
        exact congrArg (fun l => some (String.mk l))
          (takeWhile_break_some s.data before r0 hbr).symm

/-! ### Lemmas about cache insertion and eviction -/

theorem insertEntry_nodup (entries : List (String × CacheEntry)) (k : String)
    (v : CacheEntry) (h : (entries.map Prod.fst).Nodup) :
    ((insertEntry entries k v).map Prod.fst).Nodup := by
  unfold insertEntry
  by_cases hc : entries.any (fun kv => kv.1 == k) = true
  · rw [if_pos hc]
    rw [List.map_map]
    have heq : (Prod.fst ∘ fun kv : String × CacheEntry =>
        if kv.1 == k then (k, v) else kv) = Prod.fst := by
      funext kv
      simp only [Function.comp]
      by_cases hkv : (kv.1 == k) = true
      · rw [if_pos hkv]
        exact (eq_of_beq hkv).symm
      · rw [if_neg (by simpa using hkv)]
    rw [heq]
    exact h
  · rw [if_neg hc]
    rw [List.map_append]
    refine List.Nodup.append h (List.nodup_singleton k) ?_
    intro x hx hx2
    rcases List.mem_singleton.mp hx2 with rfl
    obtain ⟨kv, hkv, rfl⟩ := List.mem_map.mp hx
    have : ¬(entries.any (fun kv => kv.1 == kv.1) = true) := by
      intro hany
      exact hc (by
        simp only [List.any_eq_true]
        exact ⟨kv, hkv, by simp⟩)
    exact this (by
      simp only [List.any_eq_true]
      exact ⟨kv, hkv, by simp⟩)

theorem contains_true_iff {α} [BEq α] [LawfulBEq α] (l : List α) (x : α) :
    l.contains x = true ↔ x ∈ l := by
  induction l with
  | nil => simp
  | cons a t ih => simp [List.contains_cons, ih, beq_iff_eq]

theorem contains_false_iff {α} [BEq α] [LawfulBEq α] (l : List α) (x : α) :
    l.contains x = false ↔ x ∉ l := by
  rw [← contains_true_iff l x]
  cases h : l.contains x <;> simp

theorem evictOldest_spec (c : Cache)
    (hnd : (c.entries.map Prod.fst).Nodup) :
    c.evictOldest.entries.length =
        c.entries.length - (c.entries.length - c.config.maxEntries) ∧
      ∀ r ∈ c.entries, r ∉ c.evictOldest.entries →
        ∀ s ∈ c.evictOldest.entries,
          r.2.modifiedTime ≤ s.2.modifiedTime := by
  have htot : ∀ a b : String × CacheEntry,
      (Nat.ble a.2.modifiedTime b.2.modifiedTime) = true ∨
        (Nat.ble b.2.modifiedTime a.2.modifiedTime) = true := by
    intro a b
    rcases Nat.le_total a.2.modifiedTime b.2.modifiedTime with h | h
    · exact Or.inl (Nat.ble_eq.mpr h)
    · exact Or.inr (Nat.ble_eq.mpr h)
  have htrans : ∀ a b c2 : String × CacheEntry,
      (Nat.ble a.2.modifiedTime b.2.modifiedTime) = true →
        (Nat.ble b.2.modifiedTime c2.2.modifiedTime) = true →
        (Nat.ble a.2.modifiedTime c2.2.modifiedTime) = true := by
    intro a b c2 h1 h2
    exact Nat.ble_eq.mpr (Nat.le_trans (Nat.ble_eq.mp h1) (Nat.ble_eq.mp h2))
  unfold Cache.evictOldest
  simp only
  set tl := fun a b : String × CacheEntry =>
    Nat.ble a.2.modifiedTime b.2.modifiedTime with htl
  set sorted := stableSort tl c.entries with hsortdef
  set n := sorted.length - c.config.maxEntries with hn
  set removeKeys := (sorted.take n).map Prod.fst with hrk
  set keep := fun kv : String × CacheEntry => !(removeKeys.contains kv.1)
    with hkeep
  have hperm : sorted.Perm c.entries := stableSort_perm tl c.entries
  have hlen : sorted.length = c.entries.length := hperm.length_eq
  have hnds : (sorted.map Prod.fst).Nodup :=
    ((hperm.map Prod.fst).nodup_iff).mpr hnd
  have htd : sorted.take n ++ sorted.drop n = sorted :=
    List.take_append_drop n sorted
  have hfa : (sorted.take n).filter keep = [] := by
    rw [List.filter_eq_nil_iff]
    intro kv hkv
    have hmem : kv.1 ∈ removeKeys := List.mem_map_of_mem Prod.fst hkv
    intro hk
    simp only [hkeep, Bool.not_eq_true'] at hk
    rw [(contains_true_iff removeKeys kv.1).mpr hmem] at hk
    cases hk
  have hfb : (sorted.drop n).filter keep = sorted.drop n := by
    rw [List.filter_eq_self]
    intro kv hkv
    have hnotmem : kv.1 ∉ removeKeys := by
      intro hmem
      have hsplitnd : ((sorted.take n).map Prod.fst ++
          (sorted.drop n).map Prod.fst).Nodup := by
        rw [← List.map_append, htd]
        exact hnds
      rcases List.nodup_append.mp hsplitnd with ⟨-, -, hdisj⟩
      exact hdisj hmem (List.mem_map_of_mem Prod.fst hkv)
    simp only [hkeep, Bool.not_eq_true']
    exact (contains_false_iff removeKeys kv.1).mpr hnotmem
  have hfilter : sorted.filter keep = sorted.drop n := by
    conv_lhs => rw [← htd]
    rw [List.filter_append, hfa, hfb, List.nil_append]
  have hrperm : (c.entries.filter keep).Perm (sorted.drop n) :=
    hfilter ▸ (hperm.filter keep).symm
  constructor
  · rw [hrperm.length_eq, List.length_drop, hlen, hn, hlen]
  · intro r hr hnr s hs
    have hrs : r ∈ sorted := hperm.mem_iff.mpr hr
    have hrnd : r ∉ sorted.drop n := fun hmem => hnr (hrperm.mem_iff.mpr hmem)
    have hrt : r ∈ sorted.take n := by
      rw [← htd] at hrs
      rcases List.mem_append.mp hrs with h | h
      · exact h
      · exact absurd h hrnd
    have hsd : s ∈ sorted.drop n := hrperm.mem_iff.mp hs
    have hpw : sorted.Pairwise (fun x y => tl x y = true) :=
      pairwise_stableSort tl htot htrans c.entries
    rw [← htd] at hpw
    have hcross := (List.pairwise_append.mp hpw).2.2
    exact Nat.ble_eq.mp (hcross r hrt s hsd)

/-! ### Claim theorems -/

/-- C1: the claim states that a star re-export (`export * from "s"`)
whose specifier resolves to a project file keeps that file reachable, and
that in the three-file barrel project of scenario 5 all three files are
reachable.  Evaluating the embedded code on that very project shows the
opposite: `extract_exports` records the star re-export only as a
`ReExport` while `extract_imports` records no `Import` for it, so
`resolve_re_export_source` — which looks the specifier up among the
module's own imports — finds nothing, only the entry file is reachable,
and the barrel and inner files are reported as unused files. -/
theorem claim_C1_star_reexport_chain_broken :
    (extractExports astIndex5).2 =
        [{ specifier := "./barrel"
           exportedNames := [{ name := "*", aliasName := none, isType := false }]
           isTypeOnly := false, line := 1, col := 1 }] ∧
      extractImports astIndex5 = [] ∧
      getReachableFiles graph5 = [["p", "src", "index.ts"]] ∧
      findUnusedFiles graph5 (cfgBase true) =
        [{ path := ["p", "src", "barrel.ts"] },
         { path := ["p", "src", "inner.ts"] }] :=
  ⟨rfl, rfl, by decide, by decide⟩

/-- C2 counterexample: under the configuration the claim describes
(`ignore_exports_used_in_file = true`, everything else default) the
analysis of scenario 1 produces an empty unused-exports list, not the
single entry `{src/u.ts, b}` the claim requires: the flag makes
`find_unused_exports` skip every export unconditionally. -/
theorem claim_C2_counterexample :
    (cfgBase true).ignoreExportsUsedInFile = true ∧
      findUnusedExports graph1 (cfgBase true) = ([], []) :=
  ⟨rfl, by decide⟩

/-- C2 amended: in scenario 1, with `ignore_exports_used_in_file` true
(the spec's stated default) both diagnostic lists are empty; with the
flag false the unused-exports list contains `{src/u.ts, b}` — but
together with `{src/index.ts, main}`, because only *default* exports of
entry points are exempted.  `unused_files` is empty either way. -/
theorem claim_C2_amended :
    findUnusedExports graph1 (cfgBase true) = ([], []) ∧
      findUnusedExports
          (buildGraphWithOptions fs1 (cfgBase false) BuildOptionsM.defaultB)
          (cfgBase false) =
        ([{ path := ["p", "src", "index.ts"], name := "main", line := 2,
            col := 1, kind := .constR, isType := false },
          { path := ["p", "src", "u.ts"], name := "b", line := 2, col := 1,
            kind := .constR, isType := false }], []) ∧
      findUnusedFiles graph1 (cfgBase true) = [] ∧
      findUnusedFiles
          (buildGraphWithOptions fs1 (cfgBase false) BuildOptionsM.defaultB)
          (cfgBase false) = [] :=
  ⟨by decide, by decide, by decide, by decide⟩

/-- C3: the claim states that the dynamic import of scenario 2 — an
`await import("./plugin")` inside the body of an exported async function
— is extracted, keeping `src/plugin.ts` reachable.  Evaluating the
embedded extractor on that file shows no import is found (the scan
covers top-level statements only and never descends into function
declarations, which arrive as `ModuleDecl::ExportDecl`), so `plugin.ts`
is reported as an unused file. -/
theorem claim_C3_dynamic_import_in_function_body_missed :
    extractImports astIndex2 = [] ∧
      findUnusedFiles graph2 (cfgBase true) =
        [{ path := ["p", "src", "plugin.ts"] }] :=
  ⟨rfl, by decide⟩

/-- C4 counterexample: in a run without a package manifest,
`find_unresolved_imports` returns the empty list even though the graph
contains a relative import whose resolution failed — the function
returns early when `package_json` is `None`, contradicting the claim's
"with or without a package manifest". -/
theorem claim_C4_counterexample :
    (modulesGet graphU.modules ["p", "src", "index.ts"]).map
        (fun m => m.imports.map fun ri =>
          (ri.original.specifier, ri.resolvedPath)) =
      some [("./missing", none)] ∧
      (cfgBase true).packageJson = none ∧
      findUnresolvedImports graphU (cfgBase true) = [] :=
  ⟨by decide, rfl, by decide⟩

/-- C4 amended: in every run whose configuration has a package manifest,
the unresolved-imports list is a permutation of the per-import collection
that emits exactly one diagnostic for each relative import with no
resolved path (and one for each declared-but-unresolved non-builtin
package import), and the list is sorted by `(path, line)`. -/
theorem claim_C4_unresolved_one_per_import_sorted (g : ModuleGraphM)
    (cfg : ConfigM) (pkg : PkgJsonM) (hpkg : cfg.packageJson = some pkg) :
    (findUnresolvedImports g cfg).Perm
        (g.modules.flatMap fun pm =>
          collectUnresolvedModule (allDepsOf pkg) pm.2) ∧
      (findUnresolvedImports g cfg).Pairwise
        (fun a b => pathLineLeB a.path a.line b.path b.line = true) := by
  unfold findUnresolvedImports
  rw [hpkg]
  simp only
  constructor
  · exact stableSort_perm _ _
  · refine pairwise_stableSort _ ?_ ?_ _
    · intro a b
      exact pathLineLeB_total a.path a.line b.path b.line
    · intro a b c h1 h2
      exact pathLineLeB_trans a.path a.line b.path b.line c.path c.line h1 h2

/-- C4 witness: the amended theorem applied to the concrete
unresolved-import project with an (empty) manifest present. -/
theorem claim_C4_witness :
    cfgUWithPkg.packageJson = some pkgEmpty ∧
      ((findUnresolvedImports graphU cfgUWithPkg).Perm
          (graphU.modules.flatMap fun pm =>
            collectUnresolvedModule (allDepsOf pkgEmpty) pm.2) ∧
        (findUnresolvedImports graphU cfgUWithPkg).Pairwise
          (fun a b => pathLineLeB a.path a.line b.path b.line = true)) :=
  ⟨rfl, claim_C4_unresolved_one_per_import_sorted graphU cfgUWithPkg pkgEmpty rfl⟩

/-- C5 counterexample: in the concrete project importing `lodash`, the
import's `resolved_path` points at
`/p/node_modules/lodash/index.js`, which is not a key of the modules map
— refuting the claimed invariant that every `resolved_path` is either
`None` or a graph key. -/
theorem claim_C5_counterexample :
    (modulesGet graphNm.modules ["p", "src", "index.ts"]).map
        (fun m => m.imports.map fun ri => ri.resolvedPath) =
      some [some ["p", "node_modules", "lodash", "index.js"]] ∧
      modulesContains graphNm.modules
        ["p", "node_modules", "lodash", "index.js"] = false :=
  ⟨by decide, by decide⟩

/-- C5 amended: in every graph produced by `build_graph_with_options`,
each import's `resolved_path` is either `None` or an existing filesystem
path; it need not be a key of the modules map (node-modules resolutions
land outside the graph). -/
theorem claim_C5_resolved_paths_exist (fs : FileSys) (cfg : ConfigM)
    (opts : BuildOptionsM) (p : Path) (m : ModuleM)
    (hm : (p, m) ∈ (buildGraphWithOptions fs cfg opts).modules)
    (ri : ResolvedImportM) (hri : ri ∈ m.imports) :
    ri.resolvedPath = none ∨
      ∃ q, ri.resolvedPath = some q ∧ fs.pathExists q = true := by
  have heq := assembleModulesList_imports fs (createResolver cfg)
    (parseStage fs opts (collectProjectFiles fs cfg opts)) p m hm ri hri
  cases hres : resolve fs (createResolver cfg) ri.original.specifier p with
  | none =>
    left
    rw [heq, hres]
  | some q =>
    right
    exact ⟨q, by rw [heq, hres], resolve_exists _ _ _ _ q hres⟩

/-- C5 witness: the amended theorem applied to the scenario-1 graph and
its single import. -/
theorem claim_C5_witness :
    ((["p", "src", "index.ts"], module1Index) ∈
        (buildGraphWithOptions fs1 (cfgBase true) BuildOptionsM.defaultB).modules) ∧
      import1Index ∈ module1Index.imports ∧
      (import1Index.resolvedPath = none ∨
        ∃ q, import1Index.resolvedPath = some q ∧ fs1.pathExists q = true) :=
  ⟨by decide, by decide,
    claim_C5_resolved_paths_exist fs1 (cfgBase true) BuildOptionsM.defaultB
      ["p", "src", "index.ts"] module1Index (by decide) import1Index (by decide)⟩

/-- C6 counterexample: when the sole discovered file — which the default
entry selection chooses as the entry point — fails to parse, it is kept
in `entry_points` but absent from the modules map, refuting the claimed
subset invariant. -/
theorem claim_C6_counterexample :
    graphBadParse.entryPoints = [["p", "src", "index.ts"]] ∧
      graphBadParse.modules = [] :=
  ⟨by decide, by decide⟩

/-- C6 amended: every entry point of a built graph is a discovered
project file, and it is a key of the modules map provided its file reads
and parses successfully; a parse failure leaves the entry point in
`entry_points` without a corresponding module. -/
theorem claim_C6_entry_points_discovered (fs : FileSys) (cfg : ConfigM)
    (opts : BuildOptionsM) (e : Path)
    (he : e ∈ (buildGraphWithOptions fs cfg opts).entryPoints) :
    e ∈ collectProjectFiles fs cfg opts ∧
      ∀ sf, fs.readFile e = some sf → ∀ a, sf.ast = some a →
        modulesContains (buildGraphWithOptions fs cfg opts).modules e = true := by
  have hpf : e ∈ collectProjectFiles fs cfg opts :=
    findEntryPoints_subset cfg.root cfg _ e he
  refine ⟨hpf, ?_⟩
  intro sf hr a ha
  obtain ⟨pm, hpm⟩ := parseStage_mem fs opts _ e sf a hpf hr ha
  exact assembleModulesList_keys fs (createResolver cfg) _ e pm hpm

/-- C6 witness: the amended theorem applied to the scenario-1 build. -/
theorem claim_C6_witness :
    (["p", "src", "index.ts"] ∈
        (buildGraphWithOptions fs1 (cfgBase true) BuildOptionsM.defaultB).entryPoints) ∧
      (["p", "src", "index.ts"] ∈
          collectProjectFiles fs1 (cfgBase true) BuildOptionsM.defaultB ∧
        ∀ sf, fs1.readFile ["p", "src", "index.ts"] = some sf →
          ∀ a, sf.ast = some a →
            modulesContains
              (buildGraphWithOptions fs1 (cfgBase true) BuildOptionsM.defaultB).modules
              ["p", "src", "index.ts"] = true) :=
  ⟨by decide,
    claim_C6_entry_points_discovered fs1 (cfgBase true) BuildOptionsM.defaultB
      ["p", "src", "index.ts"] (by decide)⟩

/-- C7: building a `CacheEntry` from a parsed module with
`CacheEntry::from_parsed` and reconstructing through `to_imports`,
`to_exports` and `to_re_exports` returns the original imports, exports
and re-exports unchanged in every field (including the kind string
round-trip). -/
theorem claim_C7_cache_roundtrip (contentHash modifiedTime : Nat)
    (imports : List Import) (exports : List Export)
    (reExports : List ReExport) :
    (CacheEntry.fromParsed contentHash modifiedTime imports exports
        reExports).toImports = imports ∧
      (CacheEntry.fromParsed contentHash modifiedTime imports exports
        reExports).toExports = exports ∧
      (CacheEntry.fromParsed contentHash modifiedTime imports exports
        reExports).toReExports = reExports := by
  refine ⟨?_, ?_, ?_⟩
  · unfold CacheEntry.fromParsed CacheEntry.toImports
    simp only
    induction imports with
    | nil => rfl
    | cons x t ih => simp [import_cached_round, ih]
  · unfold CacheEntry.fromParsed CacheEntry.toExports
    simp only
    induction exports with
    | nil => rfl
    | cons x t ih => simp [export_cached_round, ih]
  · unfold CacheEntry.fromParsed CacheEntry.toReExports
    simp only
    induction reExports with
    | nil => rfl
    | cons x t ih => simp [reExport_cached_round, ih]

/-- C8: `get_package_name` agrees, on every specifier, with the
specification's description (`packageNameSpecL`): `None` for relative
and absolute specifiers; for a leading-`@` specifier containing `/`, the
first two slash-delimited segments joined by `/`; otherwise the prefix
before the first `/`, or the whole specifier when it contains no `/`. -/
theorem claim_C8_get_package_name (s : String) :
    getPackageName s = (packageNameSpecL s.data).map (fun l => String.mk l) :=
  getPackageName_spec_eq s

/-- C9: after every `Cache::insert` (on a cache whose keys are distinct,
as every real cache map's are), the number of stored entries is at most
`max_entries` (whose default is 10,000), and every entry evicted by the
insertion has a `modified_time` no larger than that of every retained
entry — the oldest entries are the ones removed. -/
theorem claim_C9_cache_insert_eviction (c : Cache) (p : Path)
    (e : CacheEntry) (hnd : (c.entries.map Prod.fst).Nodup) :
    (c.insert p e).entries.length ≤ c.config.maxEntries ∧
      (∀ r ∈ insertEntry c.entries (pathToString p) e,
        r ∉ (c.insert p e).entries →
        ∀ s ∈ (c.insert p e).entries,
          r.2.modifiedTime ≤ s.2.modifiedTime) ∧
      CacheConfig.defaultC.maxEntries = 10000 := by
  have hndraw := insertEntry_nodup c.entries (pathToString p) e hnd
  unfold Cache.insert
  simp only
  by_cases hbig : c.config.maxEntries <
      (insertEntry c.entries (pathToString p) e).length
  · rw [if_pos hbig]
    obtain ⟨hlen, hord⟩ := evictOldest_spec
      { c with entries := insertEntry c.entries (pathToString p) e } hndraw
    refine ⟨?_, hord, rfl⟩
    rw [hlen]
    simp only
    omega
  · rw [if_neg hbig]
    refine ⟨Nat.not_lt.mp hbig, ?_, rfl⟩
    intro r hr hnr s hs
    exact absurd hr hnr

/-- C9 witness: the theorem applied to a concrete two-entry cache with
capacity one; the insertion evicts the two oldest entries (times 1 and
3) and retains the newest (time 5). -/
theorem claim_C9_witness :
    ((cacheEvictFixture.entries.map Prod.fst).Nodup) ∧
      ((cacheEvictFixture.insert ["c.ts"] cacheEvictEntry).entries.length ≤
          cacheEvictFixture.config.maxEntries ∧
        (∀ r ∈ insertEntry cacheEvictFixture.entries
            (pathToString ["c.ts"]) cacheEvictEntry,
          r ∉ (cacheEvictFixture.insert ["c.ts"] cacheEvictEntry).entries →
          ∀ s ∈ (cacheEvictFixture.insert ["c.ts"] cacheEvictEntry).entries,
            r.2.modifiedTime ≤ s.2.modifiedTime) ∧
        CacheConfig.defaultC.maxEntries = 10000) :=
  ⟨by decide,
    claim_C9_cache_insert_eviction cacheEvictFixture ["c.ts"] cacheEvictEntry
      (by decide)⟩

/-- C10: whenever `ignore_exports_used_in_file` is true,
`find_unused_exports` returns empty unused-export and unused-type lists
for every module graph and every configuration — the flag is a blanket
pass-through, not a per-export "used in its own file" test. -/
theorem claim_C10_flag_suppresses_all_exports (g : ModuleGraphM)
    (cfg : ConfigM) (hflag : cfg.ignoreExportsUsedInFile = true) :
    findUnusedExports g cfg = ([], []) :=
  findUnusedExports_flag g cfg hflag

/-- C10 witness: the theorem applied to the scenario-1 graph under its
flag-true configuration. -/
theorem claim_C10_witness :
    (cfgBase true).ignoreExportsUsedInFile = true ∧
      findUnusedExports graph1 (cfgBase true) = ([], []) :=
  ⟨rfl, claim_C10_flag_suppresses_all_exports graph1 (cfgBase true) rfl⟩

end Pior
